import Mathlib

/-!
Verification of the `keep` hazard-pointer reclamation kernel and the
`plugmap` concurrent hash map built on it.

The Rust source is shallowly embedded as a sequential operational model:

* `MutSt`, `CellSt`, `GuardSt`, `Sys` model `Mutation`, `TrackedAtomic`,
  `Guard` and a whole system of cells, `Keep` handles and guards
  (src/keep/src/tracked_atomic.rs, guard.rs, keep.rs, alist.rs).
  Heap pointers become natural-number ids: mutation ids index into a
  per-cell append-only list `muts`, tracked-atomic ids index into
  `Sys.cells`.  Pointer identity is id equality.  Atomic
  compare-and-swap collapses, sequentially, to a plain test-and-set.
  `freeCount` is a ghost field counting how many times `Heap::free` ran
  on a mutation's value.
* `TableSt`, `MapSt` model `Table` / `PlugMap`
  (src/plugmap/src/table.rs, map.rs, entry.rs).  A bucket is the list of
  `EntryNode`s of its chain in insertion order; the `next` pointers are
  the list structure.  Each entry's `val : Keep<Val>` becomes a cell id
  `valCell` into the append-only value store `MapSt.cells`.
* `RSt` and `doResize` model `Resizer` (src/plugmap/src/resizer.rs) run
  by a single worker, with explicit fuel for the claiming loop.
* `BufSt` models `ConcurrentBuffer` (src/plugmap/src/dynbuf.rs).
-/

/-! ### Mutation (src/keep/src/tracked_atomic.rs, `Mutation<T>`) -/

/-- Model of `Mutation<T>`: the owned value plus the one-shot `freed`
flag.  `freeCount` is a ghost counter of executed frees of `ptr`. -/
structure MutSt where
  value : Nat
  freed : Bool
  freeCount : Nat
  deriving Repr, DecidableEq

/-- Model of `Mutation::new`: a fresh mutation with a cleared flag. -/
def mkMut (v : Nat) : MutSt := ⟨v, false, 0⟩

/-! ### AccessorList (src/keep/src/alist.rs, `Node<T>`)

A domain list is the sequence of slot contents, head first; `none` is a
null slot.  Appending a node extends the list. -/

/-- Model of `Node::insert`: store the pointer in the first free slot,
or append a new node at the tail.  Returns the new list and the index of
the node that received the value. -/
def domInsert : List (Option Nat) → Nat → List (Option Nat) × Nat
  | [], p => ([some p], 0)
  | none :: rest, p => (some p :: rest, 0)
  | some q :: rest, p =>
      let r := domInsert rest p
      (some q :: r.1, r.2 + 1)

/-- Model of `Node::clear`: compare-and-swap the slot at index `n` from
`some p` back to `none`; any other content is left alone. -/
def clearAt (d : List (Option Nat)) (n p : Nat) : List (Option Nat) :=
  match d[n]? with
  | some (some q) => if q = p then d.set n none else d
  | _ => d

/-- Model of `Node::contains`: some slot holds `p`. -/
def containsB (d : List (Option Nat)) (p : Nat) : Bool :=
  d.any (fun s => s = some p)

/-- Model of `Node::is_all_empty`: every slot is clear. -/
def isAllEmptyB (d : List (Option Nat)) : Bool :=
  d.all (fun s => s = none)

/-- Worker for `containsOrEmpty`, threading the `is_empty` flag exactly
as the loop in `Node::contains_or_empty` does. -/
def containsOrEmptyGo (p : Nat) : List (Option Nat) → Bool → Option Bool
  | [], isEmpty => if isEmpty then none else some false
  | s :: rest, isEmpty =>
      let isEmpty' := isEmpty && s.isNone
      if !isEmpty' && s = some p then some true
      else containsOrEmptyGo p rest isEmpty'

/-- Model of `Node::contains_or_empty`: `none` if every slot is clear,
`some true` if `p` occurs, `some false` otherwise. -/
def containsOrEmpty (d : List (Option Nat)) (p : Nat) : Option Bool :=
  containsOrEmptyGo p d true

/-! ### TrackedAtomic (src/keep/src/tracked_atomic.rs) -/

/-- Model of `TrackedAtomic<T>`: live-handle counter, published mutation
id, the append-only store of all mutations ever created for this cell,
the hazard domain, and a flag recording that `destroy` ran. -/
structure CellSt where
  accessorCount : Nat
  current : Nat
  muts : List MutSt
  domain : List (Option Nat)
  destroyed : Bool
  deriving Repr, DecidableEq

/-- Model of `TrackedAtomic::new` followed by the `register_accessor`
performed by `Keep::new`: one mutation, one cleared domain slot. -/
def initCell (v : Nat) : CellSt :=
  ⟨1, 0, [mkMut v], [none], false⟩

/-- Model of `TrackedAtomic::drop_mutation`: exchange the one-shot flag
`false → true`; only on success free the value (ghost `freeCount`).
Returns the updated cell and whether the exchange succeeded. -/
def dropMutation (c : CellSt) (m : Nat) : CellSt × Bool :=
  match c.muts[m]? with
  | some mu =>
      if mu.freed then (c, false)
      else ({ c with muts := c.muts.set m ⟨mu.value, true, mu.freeCount + 1⟩ }, true)
  | none => (c, false)

/-- Model of `TrackedAtomic::destroy`: free the published mutation
through the same one-shot flag and tear the cell down. -/
def destroyCell (c : CellSt) : CellSt :=
  { (dropMutation c c.current).1 with destroyed := true }

/-- Model of `TrackedAtomic::try_drop`. -/
def tryDropC (c : CellSt) (m : Nat) : CellSt :=
  let accessors := c.accessorCount
  if c.current = m ∧ accessors ≠ 0 then c
  else if accessors = 0 then
    match containsOrEmpty c.domain m with
    | some false => (dropMutation c m).1
    | none =>
        let r := dropMutation c m
        if r.2 then destroyCell r.1 else r.1
    | some true => c
  else if containsB c.domain m then c
  else (dropMutation c m).1

/-- Model of `TrackedAtomic::load`: register the current mutation in the
domain and hand back the guard data `(ptr, node)`. -/
def loadC (c : CellSt) : CellSt × Nat × Nat :=
  let p := c.current
  let r := domInsert c.domain p
  ({ c with domain := r.1 }, p, r.2)

/-- Model of `TrackedAtomic::store`: publish a fresh mutation and try to
drop the displaced one. -/
def storeC (c : CellSt) (v : Nat) : CellSt :=
  let mid := c.muts.length
  let old := c.current
  tryDropC { c with muts := c.muts ++ [mkMut v], current := mid } old

/-- Model of `TrackedAtomic::swap`: publish a fresh mutation and return
guard data over the displaced one (no reclamation attempt). -/
def swapCG (c : CellSt) (v : Nat) : CellSt × Nat × Nat :=
  let mid := c.muts.length
  let old := c.current
  let r := domInsert c.domain old
  ({ c with muts := c.muts ++ [mkMut v], current := mid, domain := r.1 }, old, r.2)

/-- Model of `TrackedAtomic::exchange`: the new mutation is always
allocated; the publish happens only if the caller's guard pointer `p` is
identical to the published mutation id.  The returned guard data covers
the previously published mutation on success, and whatever is actually
current on failure — in both cases `c.current`. -/
def exchangeC (c : CellSt) (p v : Nat) : CellSt × Bool × Nat × Nat :=
  let mid := c.muts.length
  let r := domInsert c.domain c.current
  ({ c with
      muts := c.muts ++ [mkMut v],
      current := if c.current = p then mid else c.current,
      domain := r.1 },
   decide (c.current = p), c.current, r.2)

/-- Model of `TrackedAtomic::register_accessor`. -/
def regAcc (c : CellSt) : CellSt :=
  { c with accessorCount := c.accessorCount + 1 }

/-- Model of `Keep::destroy` on the underlying cell: unregister and, if
this was the last accessor and the cell is dead, destroy it. -/
def dropAccC (c : CellSt) : CellSt :=
  let pre := c.accessorCount
  let c1 := { c with accessorCount := pre - 1 }
  if pre = 1 ∧ isAllEmptyB c.domain then destroyCell c1 else c1

/-! ### Keep / Guard system (src/keep/src/keep.rs, guard.rs)

`Sys` tracks every cell ever created, every `Keep` handle (live handles
hold the id of the cell they reference, dropped handles hold `none`) and
every `Guard` likewise. -/

/-- Model of a live `Guard<T>`: owning cell id, mutation id, domain slot
index. -/
structure GuardSt where
  cell : Nat
  ptr : Nat
  node : Nat
  deriving Repr, DecidableEq

/-- Whole-system state: all cells, all `Keep` handles, all guards. -/
structure Sys where
  cells : List CellSt
  keeps : List (Option Nat)
  guards : List (Option GuardSt)
  deriving Repr, DecidableEq

/-- Empty system. -/
def initSys : Sys := ⟨[], [], []⟩

/-- Cell id referenced by a live keep handle. -/
def Sys.getKeep (s : Sys) (k : Nat) : Option Nat :=
  (s.keeps[k]?).bind id

/-- Data of a live guard. -/
def Sys.getGuard (s : Sys) (g : Nat) : Option GuardSt :=
  (s.guards[g]?).bind id

/-- Update the cell `t` in place (no-op when `t` is out of range). -/
def updCell (s : Sys) (t : Nat) (f : CellSt → CellSt) : Sys :=
  match s.cells[t]? with
  | some c => { s with cells := s.cells.set t (f c) }
  | none => s

/-- Operations on the system: the `Keep`/`Guard` API surface of the
`keep` crate. -/
inductive Op where
  | newKeep (v : Nat)
  | cloneKeep (k : Nat)
  | cloneFromK (k k' : Nat)
  | dropKeep (k : Nat)
  | readGuard (k : Nat)
  | writeK (k v : Nat)
  | swapK (k v : Nat)
  | exchangeK (k g v : Nat)
  | cloneGuard (g : Nat)
  | dropGuard (g : Nat)
  deriving Repr, DecidableEq

/-- One system step.  Operations on dropped handles are no-ops (the real
program could not even name such a handle). -/
def step (s : Sys) (op : Op) : Sys :=
  match op with
  | .newKeep v =>
      { s with
        cells := s.cells ++ [initCell v],
        keeps := s.keeps ++ [some s.cells.length] }
  | .cloneKeep k =>
      match s.getKeep k with
      | some t => { updCell s t regAcc with keeps := s.keeps ++ [some t] }
      | none => s
  | .cloneFromK k k' =>
      match s.getKeep k, s.getKeep k' with
      | some t, some t' =>
          let s1 := updCell s t' regAcc
          { s1 with keeps := (s1.keeps.set k (some t')) ++ [some t] }
      | _, _ => s
  | .dropKeep k =>
      match s.getKeep k with
      | some t => updCell { s with keeps := s.keeps.set k none } t dropAccC
      | none => s
  | .readGuard k =>
      match s.getKeep k with
      | some t =>
          match s.cells[t]? with
          | some c =>
              let r := loadC c
              { s with
                cells := s.cells.set t r.1,
                guards := s.guards ++ [some ⟨t, r.2.1, r.2.2⟩] }
          | none => s
      | none => s
  | .writeK k v =>
      match s.getKeep k with
      | some t => updCell s t (fun c => storeC c v)
      | none => s
  | .swapK k v =>
      match s.getKeep k with
      | some t =>
          match s.cells[t]? with
          | some c =>
              let r := swapCG c v
              { s with
                cells := s.cells.set t r.1,
                guards := s.guards ++ [some ⟨t, r.2.1, r.2.2⟩] }
          | none => s
      | none => s
  | .exchangeK k g v =>
      match s.getKeep k, s.getGuard g with
      | some t, some gu =>
          if gu.cell = t then
            match s.cells[t]? with
            | some c =>
                let r := exchangeC c gu.ptr v
                { s with
                  cells := s.cells.set t r.1,
                  guards := s.guards ++ [some ⟨t, r.2.2.1, r.2.2.2⟩] }
            | none => s
          else s
      | _, _ => s
  | .cloneGuard g =>
      match s.getGuard g with
      | some gu =>
          match s.cells[gu.cell]? with
          | some c =>
              let r := domInsert c.domain gu.ptr
              { s with
                cells := s.cells.set gu.cell { c with domain := r.1 },
                guards := s.guards ++ [some ⟨gu.cell, gu.ptr, r.2⟩] }
          | none => s
      | none => s
  | .dropGuard g =>
      match s.getGuard g with
      | some gu =>
          updCell { s with guards := s.guards.set g none } gu.cell
            (fun c => tryDropC { c with domain := clearAt c.domain gu.node gu.ptr } gu.ptr)
      | none => s

/-- Run a sequence of operations from a state. -/
def runOps (s : Sys) (ops : List Op) : Sys :=
  ops.foldl step s

/-- Dereference a guard: the value of its mutation, as `Guard::deref`
reads it. -/
def derefGuard (s : Sys) (g : Nat) : Option Nat :=
  match s.getGuard g with
  | some gu =>
      match s.cells[gu.cell]? with
      | some c => (c.muts[gu.ptr]?).map MutSt.value
      | none => none
  | none => none

/-- A guard is readable when its mutation's value has never been freed. -/
def guardReadable (s : Sys) (g : Nat) : Bool :=
  match s.getGuard g with
  | some gu =>
      match s.cells[gu.cell]? with
      | some c =>
          match c.muts[gu.ptr]? with
          | some mu => !mu.freed
          | none => false
      | none => false
  | none => false

/-- Number of live keep handles referencing cell `t`. -/
def countRefs : List (Option Nat) → Nat → Nat
  | [], _ => 0
  | some u :: rest, t => (if u = t then 1 else 0) + countRefs rest t
  | none :: rest, t => countRefs rest t

/-! ### PlugMap (src/plugmap/src/entry.rs, table.rs, map.rs)

Keys, values and hashes are naturals; the hasher is an arbitrary
function `Nat → Nat`.  A bucket chain is its list of entry nodes in
insertion order (head first); the `next` links are the list structure.
Each node's `val : Keep<Val>` is a cell id into the append-only value
store `MapSt.cells`, so "same value cell" is id equality. -/

/-- Model of `EntryNode<Key, Val>`: key, value-cell id, cached hash. -/
structure ENode where
  key : Nat
  valCell : Nat
  hash : Nat
  deriving Repr, DecidableEq

/-- Model of `Table<Key, Val>`. -/
structure TableSt where
  size : Nat
  capacity : Nat
  entryCount : Nat
  buckets : List (List ENode)
  deriving Repr, DecidableEq

/-- Model of `Table::new`: the requested size is raised to at least
`PlugMap::DEFAULT_SIZE = 4` and the bucket array has `1 <<< size`
entries, all `Empty`. -/
def tableNew (size : Nat) : TableSt :=
  let size := max size 4
  ⟨size, 1 <<< size, 0, List.replicate (1 <<< size) []⟩

/-- Model of `Table::new_bigger`. -/
def tableNewBigger (t : TableSt) : TableSt :=
  tableNew (t.size + 1)

/-- Model of `Table::index_of`: `hash as usize & ((1 << size) - 1)`. -/
def indexOf (t : TableSt) (h : Nat) : Nat :=
  h &&& (1 <<< t.size - 1)

/-- Model of `Table::resize_needed_up`:
`entry_count > (capacity >> 1) + (capacity >> 2)`. -/
def resizeNeededUp (t : TableSt) (entryCount : Nat) : Bool :=
  entryCount > (t.capacity >>> 1) + (t.capacity >>> 2)

/-- Model of `EntryNode::update` on a chain: the first node with an
equal key has its value cell replaced in place (via `Keep::clone_from`)
and its old cell id is returned; otherwise the node is appended at the
tail (via `exchange` on the last `next`) and `none` is returned. -/
def chainUpdate : List ENode → ENode → List ENode × Option Nat
  | [], n => ([n], none)
  | x :: rest, n =>
      if x.key = n.key then (⟨x.key, n.valCell, x.hash⟩ :: rest, some x.valCell)
      else
        let r := chainUpdate rest n
        (x :: r.1, r.2)

/-- Model of `EntryNode::search` on a chain: value cell of the first
node with an equal key. -/
def chainSearch (chain : List ENode) (k : Nat) : Option Nat :=
  (chain.find? (fun x => x.key = k)).map ENode.valCell

/-- Model of `Table::insert`: returns the new table, the replaced value
cell (if any) and the resize flag. -/
def tableInsert (t : TableSt) (n : ENode) : TableSt × Option Nat × Bool :=
  let i := indexOf t n.hash
  match t.buckets[i]? with
  | some chain =>
      match chain with
      | [] =>
          let t' := { t with
            buckets := t.buckets.set i [n],
            entryCount := t.entryCount + 1 }
          (t', none, resizeNeededUp t (t.entryCount + 1))
      | _ :: _ =>
          let r := chainUpdate chain n
          match r.2 with
          | some old => ({ t with buckets := t.buckets.set i r.1 }, some old, false)
          | none =>
              let t' := { t with
                buckets := t.buckets.set i r.1,
                entryCount := t.entryCount + 1 }
              (t', none, resizeNeededUp t (t.entryCount + 1))
  | none => (t, none, false)

/-- Model of `Table::get` / `Entry::search`. -/
def tableGet (t : TableSt) (k : Nat) (h : Nat) : Option Nat :=
  match t.buckets[indexOf t h]? with
  | some chain => chainSearch chain k
  | none => none

/-- Model of `PlugMap<Key, Val, S>`: the table plus the append-only
store of value cells ever allocated by `Keep::new`. -/
structure MapSt where
  cells : List Nat
  table : TableSt
  deriving Repr, DecidableEq

/-- Model of `PlugMap::new_with_hasher`. -/
def mapNew (size : Nat) : MapSt :=
  ⟨[], tableNew size⟩

/-- Model of `PlugMap::insert` with hash function `hash`: build an
`EntryNode` (allocating a fresh value cell) and call `Table::insert`.
The resize flag returned by `Table::insert` is discarded (`.0` in
map.rs) and nothing else happens. -/
def mapInsert (hash : Nat → Nat) (m : MapSt) (k v : Nat) : MapSt × Option Nat :=
  let h := hash k
  let cid := m.cells.length
  let n : ENode := ⟨k, cid, h⟩
  let r := tableInsert m.table n
  (⟨m.cells ++ [v], r.1⟩, r.2.1)

/-- Model of `PlugMap::get`: the value behind the found cell. -/
def mapGet (hash : Nat → Nat) (m : MapSt) (k : Nat) : Option Nat :=
  (tableGet m.table k (hash k)).bind (fun cid => m.cells[cid]?)

/-- Run a sequence of inserts on a map. -/
def runInserts (hash : Nat → Nat) (m : MapSt) (ops : List (Nat × Nat)) : MapSt :=
  ops.foldl (fun m kv => (mapInsert hash m kv.1 kv.2).1) m

/-! ### Resizer (src/plugmap/src/resizer.rs) -/

/-- Model of `EntryNode::clone_striped`: same key, same value cell, same
hash; only the `next` pointer is fresh (implicit in the list model). -/
def cloneStriped (n : ENode) : ENode :=
  ⟨n.key, n.valCell, n.hash⟩

/-- Migrate one bucket chain: insert a striped clone of each node into
the new table, head first. -/
def migrateChain (t : TableSt) (chain : List ENode) : TableSt :=
  chain.foldl (fun t n => (tableInsert t (cloneStriped n)).1) t

/-- Model of `Resizer<Key, Val>`: old table, new table, stride and the
shared claim index. -/
structure RSt where
  oldTable : TableSt
  newTable : TableSt
  stride : Nat
  oldCapacity : Nat
  index : Nat
  deriving Repr, DecidableEq

/-- Model of `Resizer::new`. -/
def rsNew (stride : Nat) (old : TableSt) : RSt :=
  ⟨old, tableNewBigger old, stride, old.capacity, 0⟩

/-- Migrate the old buckets with indices in `[start, stop)`. -/
def migrateRange (r : RSt) (start stop : Nat) : TableSt :=
  ((r.oldTable.buckets.drop start).take (stop - start)).foldl migrateChain r.newTable

/-- Model of `Resizer::do_resize` run by a single worker: repeatedly
claim a stride `[start, start + stride)` by fetch-and-add, clamp it to
the old capacity, and break only once `start` exceeds the clamped end.
`fuel` bounds the number of loop iterations. -/
def doResize (fuel : Nat) (r : RSt) : RSt :=
  match fuel with
  | 0 => r
  | fuel + 1 =>
      let start := r.index
      let stop := min (start + r.stride) r.oldCapacity
      let r1 := { r with index := start + r.stride }
      if start > stop then r1
      else doResize fuel { r1 with newTable := migrateRange r1 start stop }

/-! ### ConcurrentBuffer (src/plugmap/src/dynbuf.rs)

A slot holds `none` when free.  Values are naturals. -/

/-- Model of `ConcurrentBuffer<T>`. -/
structure BufSt where
  lastIndex : Nat
  capacity : Nat
  buffer : List (Option Nat)
  deriving Repr, DecidableEq

/-- Model of `ConcurrentBuffer::with_capacity`. -/
def bufNew (capacity : Nat) : BufSt :=
  ⟨0, capacity, List.replicate capacity none⟩

/-- Model of `ConcurrentBuffer::put`: fetch-and-add the rotating hint;
if that index is out of bounds, return `Err(())` immediately; if the
slot there is free, install the value; otherwise scan all slots for a
free one, install there and store `i + 1` as the new hint; `Err(())`
when the scan finds nothing. -/
def bufPut (b : BufSt) (e : Nat) : BufSt × Except Unit Nat :=
  let li := b.lastIndex
  let b1 := { b with lastIndex := li + 1 }
  match b1.buffer[li]? with
  | none => (b1, .error ())
  | some slot =>
      if slot.isNone then
        ({ b1 with buffer := b1.buffer.set li (some e) }, .ok li)
      else
        match b1.buffer.findIdx? Option.isNone with
        | some i =>
            ({ b1 with buffer := b1.buffer.set i (some e), lastIndex := i + 1 }, .ok i)
        | none => (b1, .error ())

/-- Model of `ConcurrentBuffer::remove`. -/
def bufRemove (b : BufSt) (i : Nat) : BufSt × Option Nat :=
  match b.buffer[i]? with
  | some (some v) => ({ b with buffer := b.buffer.set i none }, some v)
  | _ => (b, none)

/-- A buffer has a free slot when some slot is `none`. -/
def bufHasFree (b : BufSt) : Bool :=
  b.buffer.any Option.isNone

/-! ### Claim theorems -/

/-- C10: `Table::new(size)` — and hence `PlugMap::new_with_hasher` —
allocates a bucket array of exactly `2 ^ max size 4` entries, all
`Empty`, with `entry_count` zero; the capacity is a power of two, at
least 16, and a requested size below 4 is silently raised. -/
theorem tableNew_capacity_C10 (size : Nat) :
    (mapNew size).table.capacity = 2 ^ (max size 4)
    ∧ (mapNew size).table.entryCount = 0
    ∧ (mapNew size).table.buckets = List.replicate (2 ^ (max size 4)) []
    ∧ 16 ≤ (mapNew size).table.capacity := by
  have hpow : (1 <<< max size 4) = 2 ^ (max size 4) := by
    simp [Nat.shiftLeft_eq]
  refine ⟨?_, rfl, ?_, ?_⟩
  · simp [mapNew, tableNew, hpow]
  · simp [mapNew, tableNew, hpow]
  · simp only [mapNew, tableNew, hpow]
    calc (16 : Nat) = 2 ^ 4 := by norm_num
    _ ≤ 2 ^ (max size 4) := Nat.pow_le_pow_right (by norm_num) (le_max_right _ _)

/-- C1: for all `v`, `v2`: `Keep::new(v).read()` yields a guard that
dereferences to `v`; after `write(v2)` a fresh `read()` dereferences to
`v2` while the earlier guard still dereferences to `v`; and after the
`Keep` is dropped the earlier guard is still readable as `v` (its
mutation was never freed).  Instantiated by `v = 39`, `v2 = 42` this is
exactly the literal spec scenario. -/
theorem keep_roundtrip_C1 (v v2 : Nat) :
    derefGuard (runOps initSys [.newKeep v, .readGuard 0]) 0 = some v
    ∧ derefGuard (runOps initSys [.newKeep v, .readGuard 0, .writeK 0 v2, .readGuard 0]) 1 = some v2
    ∧ derefGuard (runOps initSys [.newKeep v, .readGuard 0, .writeK 0 v2, .readGuard 0]) 0 = some v
    ∧ derefGuard (runOps initSys [.newKeep v, .readGuard 0, .writeK 0 v2, .readGuard 0, .dropKeep 0]) 0 = some v
    ∧ guardReadable (runOps initSys [.newKeep v, .readGuard 0, .writeK 0 v2, .readGuard 0, .dropKeep 0]) 0 = true := by
  refine ⟨?_, ?_, ?_, ?_, ?_⟩
  all_goals
    simp [runOps, step, initSys, initCell, loadC, domInsert, storeC, tryDropC,
      containsB, containsOrEmpty, containsOrEmptyGo, dropMutation, destroyCell,
      dropAccC, regAcc, updCell, Sys.getKeep, Sys.getGuard, derefGuard,
      guardReadable, mkMut, isAllEmptyB]
  all_goals rfl

/-- C6: `TrackedAtomic::exchange` succeeds exactly when the published
mutation id is identical to the caller's guard pointer `p` (pointer
identity: the comparison is on the mutation id, not on the stored
value); on failure the published mutation is left unchanged and the
failure guard references whatever is actually current.  The returned
guard pointer is `c.current` in both cases, and the freshly allocated
mutation is appended to the store either way. -/
theorem exchange_cas_C6 (c : CellSt) (p v : Nat) :
    (exchangeC c p v).2.1 = decide (c.current = p)
    ∧ (exchangeC c p v).1.current = (if c.current = p then c.muts.length else c.current)
    ∧ (exchangeC c p v).2.2.1 = c.current
    ∧ (exchangeC c p v).1.muts = c.muts ++ [mkMut v] := by
  refine ⟨rfl, rfl, rfl, rfl⟩

/-- C9 (failing input): on a capacity-2 buffer, `put 10; put 20;
remove 0; put 30` makes the final `put` return `Err(())` even though
slot 0 is free: the incremented rotating hint (`last_index = 2`) is out
of bounds and `put` bails out before scanning for a free slot.  This
contradicts the claim (and `put`'s own doc comment) that `Err(())` is
returned only when the buffer has no free slot. -/
theorem bufPut_err_with_free_slot_C9 :
    (bufPut (bufRemove (bufPut (bufPut (bufNew 2) 10).1 20).1 0).1 30).2 = .error ()
    ∧ bufHasFree (bufRemove (bufPut (bufPut (bufNew 2) 10).1 20).1 0).1 = true := by
  exact ⟨rfl, rfl⟩

/-! ### Helper lemmas: table geometry is never changed by inserts -/

theorem tableInsert_capacity (t : TableSt) (n : ENode) :
    (tableInsert t n).1.capacity = t.capacity ∧ (tableInsert t n).1.size = t.size := by
  simp only [tableInsert]
  cases hb : t.buckets[indexOf t n.hash]? with
  | none => simp [hb]
  | some chain =>
    cases chain with
    | nil => simp [hb]
    | cons x rest =>
      simp only [hb]
      cases hr : (chainUpdate (x :: rest) n).2 with
      | none => simp [hr]
      | some old => simp [hr]

theorem runInserts_capacity (hash : Nat → Nat) (ops : List (Nat × Nat)) (m : MapSt) :
    (runInserts hash m ops).table.capacity = m.table.capacity
    ∧ (runInserts hash m ops).table.size = m.table.size := by
  induction ops generalizing m with
  | nil => exact ⟨rfl, rfl⟩
  | cons kv ops ih =>
    have h1 := tableInsert_capacity m.table ⟨kv.1, m.cells.length, hash kv.1⟩
    have h2 := ih (mapInsert hash m kv.1 kv.2).1
    simp only [runInserts, List.foldl_cons] at h2 ⊢
    rw [h2.1, h2.2] at *
    exact ⟨by rw [h2.1]; exact h1.1, by rw [h2.2]; exact h1.2⟩

/-- Key sequence `(0,0), (1,1), …, (n-1, n-1)`. -/
def diagOps (n : Nat) : List (Nat × Nat) :=
  (List.range n).map (fun i => (i, i))

set_option maxRecDepth 40000 in
/-- C5 (counterexample): with the identity hasher on a size-4 map
(capacity 16), the 13th distinct insert raises `entry_count` to 13,
which exceeds 75% of the capacity (`13 > 16/2 + 16/4 = 12`) and makes
`Table::insert` report the resize as needed — yet the capacity is still
16 after that insert and even after 100 distinct inserts: `PlugMap::
insert` discards the flag and never installs a Resizer, so the map
never migrates into a table of twice the capacity. -/
theorem no_resizer_installed_C5_counterexample :
    (runInserts id (mapNew 4) (diagOps 13)).table.entryCount = 13
    ∧ (tableInsert (runInserts id (mapNew 4) (diagOps 12)).table
        ⟨12, (runInserts id (mapNew 4) (diagOps 12)).cells.length, id 12⟩).2.2 = true
    ∧ (runInserts id (mapNew 4) (diagOps 13)).table.capacity = 16
    ∧ (runInserts id (mapNew 4) (diagOps 100)).table.capacity = 16 := by
  exact ⟨by decide, by decide, by decide, by decide⟩

/-- C5 (amended): after an insert that increases `entry_count`,
`Table::insert` computes a resize-needed flag as
`entry_count > (capacity >> 1) + (capacity >> 2)` (shifts, no
division) — but `PlugMap::insert` discards that flag, no Resizer is
ever installed, and the table's capacity and size never change across
any sequence of inserts. -/
theorem resize_flag_discarded_C5 (hash : Nat → Nat) (m : MapSt)
    (ops : List (Nat × Nat)) (t : TableSt) (c : Nat) :
    resizeNeededUp t c = decide (c > t.capacity / 2 + t.capacity / 4)
    ∧ (runInserts hash m ops).table.capacity = m.table.capacity
    ∧ (runInserts hash m ops).table.size = m.table.size := by
  refine ⟨?_, (runInserts_capacity hash ops m).1, (runInserts_capacity hash ops m).2⟩
  have h1 : t.capacity >>> 1 = t.capacity / 2 := by
    rw [Nat.shiftRight_eq_div_pow]
  have h2 : t.capacity >>> 2 = t.capacity / 4 := by
    rw [Nat.shiftRight_eq_div_pow]
  simp [resizeNeededUp, h1, h2]

/-! ### Chain update characterization (src/plugmap/src/entry.rs) -/

/-- Replace the value cell of the first node whose key matches `n.key`,
keeping its key, hash and position. -/
def chainReplaceFirst : List ENode → ENode → List ENode
  | [], _ => []
  | x :: rest, n =>
      if x.key = n.key then ⟨x.key, n.valCell, x.hash⟩ :: rest
      else x :: chainReplaceFirst rest n

theorem chainUpdate_absent (chain : List ENode) (n : ENode)
    (h : chainSearch chain n.key = none) :
    chainUpdate chain n = (chain ++ [n], none) := by
  induction chain with
  | nil => rfl
  | cons x rest ih =>
    have hk : x.key ≠ n.key := by
      intro hc
      simp [chainSearch, List.find?_cons, hc] at h
    have hr : chainSearch rest n.key = none := by
      simpa [chainSearch, List.find?_cons, hk] using h
    simp only [chainUpdate, hk, if_false]
    rw [ih hr]
    rfl

theorem chainUpdate_present (chain : List ENode) (n : ENode) (old : Nat)
    (h : chainSearch chain n.key = some old) :
    chainUpdate chain n = (chainReplaceFirst chain n, some old) := by
  induction chain with
  | nil => simp [chainSearch] at h
  | cons x rest ih =>
    by_cases hk : x.key = n.key
    · have hold : x.valCell = old := by
        simpa [chainSearch, List.find?_cons, hk] using h
      simp [chainUpdate, chainReplaceFirst, hk, hold]
    · have hr : chainSearch rest n.key = some old := by
        simpa [chainSearch, List.find?_cons, hk] using h
      simp only [chainUpdate, chainReplaceFirst, hk, if_false]
      rw [ih hr]

/-- C4: on `Table::insert` of a node `n` into the bucket selected by its
hash: if the chain has a node with an equal key, that node's value cell
is replaced in place (key, hash and position preserved) and its old
value cell is returned with `entry_count` unchanged; if no node matches,
the node is installed as the bucket `Head` (empty chain) or appended at
the tail — in both cases the chain becomes `chain ++ [n]` — `entry_count`
is incremented by one and `none` is returned. -/
theorem tableInsert_update_or_append_C4 (t : TableSt) (n : ENode)
    (chain : List ENode)
    (hb : t.buckets[indexOf t n.hash]? = some chain) :
    (chainSearch chain n.key = none →
        (tableInsert t n).2.1 = none
        ∧ (tableInsert t n).1.entryCount = t.entryCount + 1
        ∧ (tableInsert t n).1.buckets
            = t.buckets.set (indexOf t n.hash) (chain ++ [n]))
    ∧ (∀ old, chainSearch chain n.key = some old →
        (tableInsert t n).2.1 = some old
        ∧ (tableInsert t n).1.entryCount = t.entryCount
        ∧ (tableInsert t n).1.buckets
            = t.buckets.set (indexOf t n.hash) (chainReplaceFirst chain n)) := by
  constructor
  · intro hnone
    cases chain with
    | nil => simp [tableInsert, hb]
    | cons x rest =>
      have hu := chainUpdate_absent (x :: rest) n hnone
      simp [tableInsert, hb, hu]
  · intro old hsome
    cases chain with
    | nil => simp [chainSearch] at hsome
    | cons x rest =>
      have hu := chainUpdate_present (x :: rest) n old hsome
      simp [tableInsert, hb, hu]

/-- Witness for `tableInsert_update_or_append_C4`: a concrete
capacity-16 table whose bucket 3 holds keys 3 and 19; inserting key 19
replaces in place and returns the old cell, inserting key 35 appends. -/
theorem tableInsert_update_or_append_C4_witness :
    (let t : TableSt := (runInserts id (mapNew 4) [(3, 30), (19, 40)]).table
     let chain := [ENode.mk 3 0 3, ENode.mk 19 1 19]
     t.buckets[indexOf t 19]? = some chain
     ∧ ((tableInsert t ⟨19, 2, 19⟩).2.1 = some 1
        ∧ (tableInsert t ⟨19, 2, 19⟩).1.entryCount = t.entryCount
        ∧ (tableInsert t ⟨19, 2, 19⟩).1.buckets
            = t.buckets.set (indexOf t 19) (chainReplaceFirst chain ⟨19, 2, 19⟩))
     ∧ ((tableInsert t ⟨35, 2, 35⟩).2.1 = none
        ∧ (tableInsert t ⟨35, 2, 35⟩).1.entryCount = t.entryCount + 1
        ∧ (tableInsert t ⟨35, 2, 35⟩).1.buckets
            = t.buckets.set (indexOf t 35) (chain ++ [⟨35, 2, 35⟩]))) := by
  refine ⟨by decide, ?_, ?_⟩
  · exact (tableInsert_update_or_append_C4 _ ⟨19, 2, 19⟩ _ (by decide)).2 1 (by decide)
  · exact (tableInsert_update_or_append_C4 _ ⟨35, 2, 35⟩ _ (by decide)).1 (by decide)

/-! ### One-shot free flag invariant (for C2) -/

/-- A mutation's ghost free counter agrees with its one-shot flag: the
value has been freed exactly once if the flag is set, never otherwise. -/
def MutOK (mu : MutSt) : Prop :=
  mu.freeCount = (if mu.freed then 1 else 0)

/-- All mutations of a cell satisfy `MutOK`. -/
def CellOK (c : CellSt) : Prop :=
  ∀ (i : Nat) (mu : MutSt), c.muts[i]? = some mu → MutOK mu

/-- All cells of a system satisfy `CellOK`. -/
def SysOK (s : Sys) : Prop :=
  ∀ (t : Nat) (c : CellSt), s.cells[t]? = some c → CellOK c

theorem cellOK_muts_eq {c c' : CellSt} (h : c'.muts = c.muts) (hc : CellOK c) :
    CellOK c' := by
  unfold CellOK at hc ⊢
  intro i mu hm
  exact hc i mu (h ▸ hm)

theorem cellOK_append (c : CellSt) (v : Nat) (hc : CellOK c) :
    ∀ (i : Nat) (mu : MutSt), (c.muts ++ [mkMut v])[i]? = some mu → MutOK mu := by
  intro i mu hm
  rcases lt_or_ge i c.muts.length with hi | hi
  · rw [List.getElem?_append_left hi] at hm
    exact hc i mu hm
  · rw [List.getElem?_append_right hi] at hm
    rcases Nat.eq_or_lt_of_le hi with hieq | hilt
    · rw [← hieq, Nat.sub_self] at hm
      simp only [List.getElem?_cons_zero, Option.some_inj] at hm
      subst hm
      rfl
    · rw [List.getElem?_eq_none] at hm
      · cases hm
      · simp only [List.length_cons, List.length_nil]
        omega

theorem cellOK_dropMutation (c : CellSt) (m : Nat) (hc : CellOK c) :
    CellOK (dropMutation c m).1 := by
  unfold dropMutation
  cases hm : c.muts[m]? with
  | none => exact hc
  | some mu =>
    by_cases hf : mu.freed = true
    · simpa [hf] using hc
    · rw [Bool.not_eq_true] at hf
      simp only [hf, Bool.false_eq_true, if_false]
      unfold CellOK
      intro i nu hn
      by_cases him : i = m
      · subst him
        rw [List.getElem?_set_self'] at hn
        simp only [hm, Option.map_some'] at hn
        cases hn
        have hmu := hc i mu hm
        unfold MutOK at hmu ⊢
        simp only [hf, Bool.false_eq_true, if_false] at hmu
        simp [hmu]
      · rw [List.getElem?_set_ne (fun a => him a.symm)] at hn
        exact hc i nu hn

theorem cellOK_destroyCell (c : CellSt) (hc : CellOK c) : CellOK (destroyCell c) := by
  unfold destroyCell
  exact cellOK_muts_eq rfl (cellOK_dropMutation c c.current hc)

theorem cellOK_tryDropC (c : CellSt) (m : Nat) (hc : CellOK c) :
    CellOK (tryDropC c m) := by
  unfold tryDropC
  by_cases h1 : c.current = m ∧ c.accessorCount ≠ 0
  · simpa [h1] using hc
  · simp only [h1, if_false]
    by_cases h2 : c.accessorCount = 0
    · simp only [h2, if_true]
      cases hco : containsOrEmpty c.domain m with
      | some b =>
        cases b with
        | false => exact cellOK_dropMutation c m hc
        | true => exact hc
      | none =>
        by_cases hok : (dropMutation c m).2 = true
        · simp only [hok, if_true]
          exact cellOK_destroyCell _ (cellOK_dropMutation c m hc)
        · rw [Bool.not_eq_true] at hok
          simp only [hok, Bool.false_eq_true, if_false]
          exact cellOK_dropMutation c m hc
    · simp only [h2, if_false]
      by_cases h3 : containsB c.domain m = true
      · simpa [h3] using hc
      · rw [Bool.not_eq_true] at h3
        simp only [h3, Bool.false_eq_true, if_false]
        exact cellOK_dropMutation c m hc

theorem cellOK_storeC (c : CellSt) (v : Nat) (hc : CellOK c) :
    CellOK (storeC c v) := by
  unfold storeC
  exact cellOK_tryDropC _ _ (cellOK_append c v hc)

theorem cellOK_loadC (c : CellSt) (hc : CellOK c) : CellOK (loadC c).1 := by
  exact cellOK_muts_eq rfl hc

theorem cellOK_swapCG (c : CellSt) (v : Nat) (hc : CellOK c) :
    CellOK (swapCG c v).1 := by
  unfold swapCG
  exact cellOK_append c v hc

theorem cellOK_exchangeC (c : CellSt) (p v : Nat) (hc : CellOK c) :
    CellOK (exchangeC c p v).1 := by
  unfold exchangeC
  exact cellOK_append c v hc

theorem cellOK_regAcc (c : CellSt) (hc : CellOK c) : CellOK (regAcc c) :=
  cellOK_muts_eq rfl hc

theorem cellOK_dropAccC (c : CellSt) (hc : CellOK c) : CellOK (dropAccC c) := by
  unfold dropAccC
  by_cases h : c.accessorCount = 1 ∧ isAllEmptyB c.domain = true
  · simp only [h, if_true]
    exact cellOK_destroyCell _ (cellOK_muts_eq rfl hc)
  · simpa [h] using cellOK_muts_eq rfl hc

theorem cellOK_initCell (v : Nat) : CellOK (initCell v) := by
  unfold CellOK initCell
  intro i mu hm
  cases i with
  | zero =>
    simp only [List.getElem?_cons_zero, Option.some_inj] at hm
    subst hm
    rfl
  | succ j =>
    simp at hm

theorem sysOK_cells_eq {s s' : Sys} (h : s'.cells = s.cells) (hs : SysOK s) :
    SysOK s' := by
  unfold SysOK at hs ⊢
  intro t c ht
  exact hs t c (h ▸ ht)

theorem cellsOK_set (cells : List CellSt) (t : Nat) (c' : CellSt)
    (h : ∀ (u : Nat) (c : CellSt), cells[u]? = some c → CellOK c)
    (hc' : CellOK c') :
    ∀ (u : Nat) (c : CellSt), (cells.set t c')[u]? = some c → CellOK c := by
  intro u c hu
  by_cases hut : u = t
  · subst hut
    rw [List.getElem?_set_self'] at hu
    cases hx : cells[u]? with
    | none => rw [hx] at hu; cases hu
    | some x =>
      rw [hx] at hu
      have hcc : c = c' := by simpa using hu.symm
      subst hcc
      exact hc'
  · rw [List.getElem?_set_ne (fun a => hut a.symm)] at hu
    exact h u c hu

theorem sysOK_updCell (s : Sys) (t : Nat) (f : CellSt → CellSt)
    (hf : ∀ c, CellOK c → CellOK (f c)) (hs : SysOK s) : SysOK (updCell s t f) := by
  unfold updCell
  cases hc : s.cells[t]? with
  | none => exact hs
  | some c =>
    unfold SysOK
    intro u d hu
    exact cellsOK_set s.cells t (f c) hs (hf c (hs t c hc)) u d hu

theorem cellsOK_append_init (cells : List CellSt) (v : Nat)
    (h : ∀ (u : Nat) (c : CellSt), cells[u]? = some c → CellOK c) :
    ∀ (u : Nat) (c : CellSt), (cells ++ [initCell v])[u]? = some c → CellOK c := by
  intro u c hu
  rcases lt_or_ge u cells.length with hi | hi
  · rw [List.getElem?_append_left hi] at hu
    exact h u c hu
  · rw [List.getElem?_append_right hi] at hu
    rcases Nat.eq_or_lt_of_le hi with hieq | hilt
    · rw [← hieq, Nat.sub_self] at hu
      simp only [List.getElem?_cons_zero, Option.some_inj] at hu
      subst hu
      exact cellOK_initCell v
    · rw [List.getElem?_eq_none] at hu
      · cases hu
      · simp only [List.length_cons, List.length_nil]
        omega

theorem sysOK_step (s : Sys) (op : Op) (hs : SysOK s) : SysOK (step s op) := by
  cases op with
  | newKeep v =>
    simp only [step]
    unfold SysOK
    intro t c ht
    exact cellsOK_append_init s.cells v hs t c ht
  | cloneKeep k =>
    simp only [step]
    split
    · exact sysOK_cells_eq rfl (sysOK_updCell s _ regAcc (fun c => cellOK_regAcc c) hs)
    · exact hs
  | cloneFromK k k' =>
    simp only [step]
    split
    · exact sysOK_cells_eq rfl (sysOK_updCell s _ regAcc (fun c => cellOK_regAcc c) hs)
    · exact hs
  | dropKeep k =>
    simp only [step]
    split
    · exact sysOK_updCell _ _ dropAccC (fun c => cellOK_dropAccC c) (sysOK_cells_eq rfl hs)
    · exact hs
  | readGuard k =>
    simp only [step]
    split
    · next t hk =>
        split
        · next c hc =>
            unfold SysOK
            intro u d hu
            exact cellsOK_set s.cells t (loadC c).1 hs (cellOK_loadC c (hs t c hc)) u d hu
        · exact hs
    · exact hs
  | writeK k v =>
    simp only [step]
    split
    · exact sysOK_updCell s _ (fun c => storeC c v) (fun c => cellOK_storeC c v) hs
    · exact hs
  | swapK k v =>
    simp only [step]
    split
    · next t hk =>
        split
        · next c hc =>
            unfold SysOK
            intro u d hu
            exact cellsOK_set s.cells t (swapCG c v).1 hs (cellOK_swapCG c v (hs t c hc)) u d hu
        · exact hs
    · exact hs
  | exchangeK k g v =>
    simp only [step]
    split
    · next t gu hk hg =>
        split
        · split
          · next c hc =>
              unfold SysOK
              intro u d hu
              exact cellsOK_set s.cells t (exchangeC c gu.ptr v).1 hs
                (cellOK_exchangeC c gu.ptr v (hs t c hc)) u d hu
          · exact hs
        · exact hs
    · exact hs
  | cloneGuard g =>
    simp only [step]
    split
    · split
      · next c hc =>
          unfold SysOK
          intro u d hu
          refine cellsOK_set s.cells _ _ hs ?_ u d hu
          exact cellOK_muts_eq rfl (hs _ c hc)
      · exact hs
    · exact hs
  | dropGuard g =>
    simp only [step]
    split
    · next gu hg =>
        refine sysOK_updCell _ gu.cell _ ?_ (sysOK_cells_eq rfl hs)
        intro c hc
        exact cellOK_tryDropC _ gu.ptr (cellOK_muts_eq rfl hc)
    · exact hs

theorem sysOK_run (ops : List Op) (s : Sys) (hs : SysOK s) : SysOK (runOps s ops) := by
  induction ops generalizing s with
  | nil => exact hs
  | cons op ops ih => exact ih (step s op) (sysOK_step s op hs)

theorem sysOK_init : SysOK initSys := by
  unfold SysOK initSys
  intro t c ht
  simp at ht

/-- C2: across every sequence of reads, writes, swaps, exchanges, guard
clones/drops and keep clones/drops, every mutation of every cell has its
value freed exactly when its one-shot `freed` flag was exchanged
`false → true`, and therefore is freed at most once — no mutation is
ever freed twice. -/
theorem no_double_free_C2 (ops : List Op) (t : Nat) (c : CellSt)
    (hc : (runOps initSys ops).cells[t]? = some c)
    (i : Nat) (mu : MutSt) (hm : c.muts[i]? = some mu) :
    mu.freeCount = (if mu.freed then 1 else 0) ∧ mu.freeCount ≤ 1 := by
  have h := sysOK_run ops initSys sysOK_init t c hc i mu hm
  unfold MutOK at h
  refine ⟨h, ?_⟩
  rw [h]
  cases mu.freed <;> simp

/-- Witness for `no_double_free_C2`: a write followed by a keep drop
frees the first mutation exactly once (flag set, count 1), and the
destroy path frees the second exactly once as well. -/
theorem no_double_free_C2_witness :
    (runOps initSys [.newKeep 5, .writeK 0 7, .dropKeep 0]).cells[0]?
        = some ⟨0, 1, [⟨5, true, 1⟩, ⟨7, true, 1⟩], [none], true⟩
    ∧ ((1 : Nat) = (if true then 1 else 0) ∧ (1 : Nat) ≤ 1) := by
  constructor
  · rfl
  · exact no_double_free_C2 [.newKeep 5, .writeK 0 7, .dropKeep 0] 0
      ⟨0, 1, [⟨5, true, 1⟩, ⟨7, true, 1⟩], [none], true⟩ rfl 0 ⟨5, true, 1⟩ rfl

set_option maxRecDepth 40000 in
/-- C8 (counterexample): a capacity-16 old table holding 17 entries is
fully migrated by `do_resize` — the new table's running insert count
reaches 17, strictly beyond `min(old capacity, new capacity) = 16`.  The
map Resizer's loop stops only when the claimed stride start exceeds the
old capacity; it has no stop condition on the new table's insert count
(that condition exists only in the slot-pool's resizer in dynbuf.rs). -/
theorem resizer_no_count_stop_C8_counterexample :
    (doResize 3 (rsNew 16 (runInserts id (mapNew 4) (diagOps 17)).table)).newTable.entryCount = 17
    ∧ min (rsNew 16 (runInserts id (mapNew 4) (diagOps 17)).table).oldTable.capacity
          (rsNew 16 (runInserts id (mapNew 4) (diagOps 17)).table).newTable.capacity = 16 := by
  exact ⟨by decide, by decide⟩

theorem doResize_migrates_all (fuel : Nat) (r : RSt)
    (hstride : 0 < r.stride)
    (hcap : r.oldCapacity = r.oldTable.buckets.length)
    (hfuel : r.oldTable.buckets.length + 2 ≤ fuel + r.index) :
    (doResize fuel r).newTable
      = (r.oldTable.buckets.drop r.index).foldl migrateChain r.newTable := by
  induction fuel generalizing r with
  | zero =>
    have hle : r.oldTable.buckets.length ≤ r.index := by omega
    rw [List.drop_eq_nil_of_le hle]
    rfl
  | succ fuel ih =>
    simp only [doResize]
    by_cases hgt : r.index > min (r.index + r.stride) r.oldCapacity
    · have hidx : r.oldTable.buckets.length ≤ r.index := by omega
      simp only [hgt, if_true]
      rw [List.drop_eq_nil_of_le hidx]
      rfl
    · simp only [hgt, if_false]
      have hrec := ih
        ⟨r.oldTable,
         migrateRange ⟨r.oldTable, r.newTable, r.stride, r.oldCapacity, r.index + r.stride⟩
           r.index (min (r.index + r.stride) r.oldCapacity),
         r.stride, r.oldCapacity, r.index + r.stride⟩
        hstride hcap
        (show r.oldTable.buckets.length + 2 ≤ fuel + (r.index + r.stride) by omega)
      rw [hrec]
      simp only [migrateRange]
      rw [← List.foldl_append]
      congr 1
      have hstop : r.index ≤ min (r.index + r.stride) r.oldCapacity := by omega
      rcases Nat.le_total (r.index + r.stride) r.oldCapacity with hle | hle
      · have hmin : min (r.index + r.stride) r.oldCapacity = r.index + r.stride :=
          Nat.min_eq_left hle
        rw [hmin]
        have : r.index + r.stride - r.index = r.stride := by omega
        rw [this]
        rw [← List.drop_drop]
        exact List.take_append_drop _ _
      · have hmin : min (r.index + r.stride) r.oldCapacity = r.oldCapacity :=
          Nat.min_eq_right hle
        rw [hmin]
        have h1 : (r.oldTable.buckets.drop r.index).take (r.oldCapacity - r.index)
            = r.oldTable.buckets.drop r.index := by
          apply List.take_of_length_le
          rw [List.length_drop, hcap]
        have h2 : r.oldTable.buckets.drop (r.index + r.stride) = [] :=
          List.drop_eq_nil_of_le (by omega)
        rw [h1, h2, List.append_nil]

/-- C8 (amended): a worker running the map Resizer's migration loop
repeatedly claims a stride of old-table indices by fetch-and-add and
inserts into the new table a structurally cloned copy (`clone_striped`:
same key, same value cell, same hash, fresh `next`) of every node in the
chains of its claimed buckets; it stops only when its claimed range is
exhausted (the claimed start exceeds the old capacity) — there is no
stop condition on the new table's insert count.  A single worker with a
positive stride and enough loop iterations therefore migrates every
bucket of the old table. -/
theorem resizer_migrates_all_C8 (stride fuel : Nat) (old : TableSt)
    (hstride : 0 < stride)
    (hcap : old.capacity = old.buckets.length)
    (hfuel : old.buckets.length + 2 ≤ fuel) :
    (doResize fuel (rsNew stride old)).newTable
      = old.buckets.foldl migrateChain (tableNewBigger old) := by
  have h := doResize_migrates_all fuel (rsNew stride old) hstride hcap
    (by simpa [rsNew] using hfuel)
  simpa [rsNew] using h

set_option maxRecDepth 40000 in
/-- Witness for `resizer_migrates_all_C8`: migrating a concrete
capacity-16 table holding keys 0, 1, 2 with stride 4 and fuel 18 yields
the fold of `migrateChain` over all 16 old buckets. -/
theorem resizer_migrates_all_C8_witness :
    (0 : Nat) < 4
    ∧ (runInserts id (mapNew 4) (diagOps 3)).table.capacity
        = (runInserts id (mapNew 4) (diagOps 3)).table.buckets.length
    ∧ (runInserts id (mapNew 4) (diagOps 3)).table.buckets.length + 2 ≤ 18
    ∧ (doResize 18 (rsNew 4 (runInserts id (mapNew 4) (diagOps 3)).table)).newTable
        = (runInserts id (mapNew 4) (diagOps 3)).table.buckets.foldl migrateChain
            (tableNewBigger (runInserts id (mapNew 4) (diagOps 3)).table) := by
  refine ⟨by decide, by decide, by decide, ?_⟩
  exact resizer_migrates_all_C8 4 18 _ (by decide) (by decide) (by decide)

/-! ### Map correctness (for C3) -/

/-- Value of the most recent insert for key `k` in an insert history. -/
def latestVal (ops : List (Nat × Nat)) (k : Nat) : Option Nat :=
  ops.foldl (fun acc kv => if kv.1 = k then some kv.2 else acc) none

theorem chainSearch_nil (k : Nat) : chainSearch [] k = none := rfl

theorem chainSearch_none_key (chain : List ENode) (k : Nat)
    (h : chainSearch chain k = none) : ∀ nd ∈ chain, nd.key ≠ k := by
  intro nd hmem hk
  induction chain with
  | nil => cases hmem
  | cons x rest ih =>
    rcases List.mem_cons.mp hmem with hx | hrest
    · subst hx
      simp [chainSearch, List.find?_cons, hk] at h
    · by_cases hxk : x.key = k
      · simp [chainSearch, List.find?_cons, hxk] at h
      · exact ih (by simpa [chainSearch, List.find?_cons, hxk] using h) hrest

theorem chainSearch_append_self (chain : List ENode) (n : ENode)
    (h : chainSearch chain n.key = none) :
    chainSearch (chain ++ [n]) n.key = some n.valCell := by
  induction chain with
  | nil => simp [chainSearch, List.find?_cons]
  | cons x rest ih =>
    by_cases hxk : x.key = n.key
    · simp [chainSearch, List.find?_cons, hxk] at h
    · simp only [chainSearch, List.cons_append, List.find?_cons, hxk, decide_False] at *
      exact ih (by simpa [chainSearch] using h)

theorem chainSearch_append_other (chain : List ENode) (n : ENode) (k : Nat)
    (hk : k ≠ n.key) :
    chainSearch (chain ++ [n]) k = chainSearch chain k := by
  have hnk : n.key ≠ k := Ne.symm hk
  induction chain with
  | nil => simp [chainSearch, List.find?_cons, hnk]
  | cons x rest ih =>
    by_cases hxk : x.key = k
    · simp [chainSearch, List.find?_cons, hxk]
    · simpa [chainSearch, List.find?_cons, hxk] using ih

theorem chainSearch_replace_self (chain : List ENode) (n : ENode) (old : Nat)
    (h : chainSearch chain n.key = some old) :
    chainSearch (chainReplaceFirst chain n) n.key = some n.valCell := by
  induction chain with
  | nil => simp [chainSearch] at h
  | cons x rest ih =>
    by_cases hxk : x.key = n.key
    · simp [chainReplaceFirst, chainSearch, List.find?_cons, hxk]
    · simp only [chainReplaceFirst, hxk, if_false]
      simp only [chainSearch, List.find?_cons, hxk, decide_False] at *
      exact ih (by simpa [chainSearch] using h)

theorem chainSearch_replace_other (chain : List ENode) (n : ENode) (k : Nat)
    (hk : k ≠ n.key) :
    chainSearch (chainReplaceFirst chain n) k = chainSearch chain k := by
  have hnk : n.key ≠ k := Ne.symm hk
  induction chain with
  | nil => rfl
  | cons x rest ih =>
    by_cases hxk : x.key = n.key
    · have hxkk : x.key ≠ k := fun a => hnk (hxk ▸ a)
      simp [chainReplaceFirst, chainSearch, List.find?_cons, hxk, hxkk, hnk]
    · by_cases hxkk : x.key = k
      · simp [chainReplaceFirst, chainSearch, List.find?_cons, hxk, hxkk, hnk, hk]
      · simpa [chainReplaceFirst, chainSearch, List.find?_cons, hxk, hxkk, hnk, hk] using ih

theorem chainSearch_mem (chain : List ENode) (k : Nat) (cid : Nat)
    (h : chainSearch chain k = some cid) :
    ∃ nd ∈ chain, nd.key = k ∧ nd.valCell = cid := by
  induction chain with
  | nil => simp [chainSearch] at h
  | cons x rest ih =>
    by_cases hxk : x.key = k
    · refine ⟨x, List.mem_cons_self x rest, hxk, ?_⟩
      simpa [chainSearch, List.find?_cons, hxk] using h
    · have hr := ih (by simpa [chainSearch, List.find?_cons, hxk] using h)
      rcases hr with ⟨nd, hmem, hkey, hc⟩
      exact ⟨nd, List.mem_cons_of_mem x hmem, hkey, hc⟩

theorem chainReplaceFirst_keys (chain : List ENode) (n : ENode) :
    (chainReplaceFirst chain n).map ENode.key = chain.map ENode.key := by
  induction chain with
  | nil => rfl
  | cons x rest ih =>
    by_cases hxk : x.key = n.key
    · simp [chainReplaceFirst, hxk]
    · simp [chainReplaceFirst, hxk, ih]

theorem tableInsert_absent (t : TableSt) (n : ENode) (chain : List ENode)
    (hb : t.buckets[indexOf t n.hash]? = some chain)
    (h : chainSearch chain n.key = none) :
    tableInsert t n
      = (⟨t.size, t.capacity, t.entryCount + 1,
          t.buckets.set (indexOf t n.hash) (chain ++ [n])⟩,
         none, resizeNeededUp t (t.entryCount + 1)) := by
  cases chain with
  | nil => simp [tableInsert, hb]
  | cons x rest =>
    have hu := chainUpdate_absent (x :: rest) n h
    simp [tableInsert, hb, hu]

theorem tableInsert_present (t : TableSt) (n : ENode) (chain : List ENode)
    (old : Nat)
    (hb : t.buckets[indexOf t n.hash]? = some chain)
    (h : chainSearch chain n.key = some old) :
    tableInsert t n
      = (⟨t.size, t.capacity, t.entryCount,
          t.buckets.set (indexOf t n.hash) (chainReplaceFirst chain n)⟩,
         some old, false) := by
  cases chain with
  | nil => simp [chainSearch] at h
  | cons x rest =>
    have hu := chainUpdate_present (x :: rest) n old h
    simp [tableInsert, hb, hu]

/-- Structural invariant of a map state maintained by `mapInsert`. -/
structure TblInv (hash : Nat → Nat) (m : MapSt) : Prop where
  capPow : m.table.capacity = 2 ^ m.table.size
  blen : m.table.buckets.length = m.table.capacity
  nodeOK : ∀ (i : Nat) (chain : List ENode), m.table.buckets[i]? = some chain →
      ∀ nd ∈ chain, nd.hash = hash nd.key ∧ indexOf m.table nd.hash = i
        ∧ nd.valCell < m.cells.length
  keysNodup : ∀ (i : Nat) (chain : List ENode), m.table.buckets[i]? = some chain →
      (chain.map ENode.key).Nodup

theorem indexOf_eq_mod (t : TableSt) (h : Nat) : indexOf t h = h % 2 ^ t.size := by
  unfold indexOf
  rw [Nat.shiftLeft_eq, one_mul, Nat.and_pow_two_sub_one_eq_mod]

theorem indexOf_lt (t : TableSt) (hpow : t.capacity = 2 ^ t.size)
    (hlen : t.buckets.length = t.capacity) (h : Nat) :
    indexOf t h < t.buckets.length := by
  rw [indexOf_eq_mod, hlen, hpow]
  exact Nat.mod_lt _ (Nat.pos_pow_of_pos _ (by norm_num))

theorem indexOf_size_congr (t t' : TableSt) (hsz : t'.size = t.size) (h : Nat) :
    indexOf t' h = indexOf t h := by
  rw [indexOf_eq_mod, indexOf_eq_mod, hsz]

theorem indexOf_mk (sz cap cnt : Nat) (bks : List (List ENode)) (h : Nat) :
    indexOf ⟨sz, cap, cnt, bks⟩ h = h % 2 ^ sz :=
  indexOf_eq_mod _ _

theorem chainReplaceFirst_mem (chain : List ENode) (n : ENode) (nd : ENode)
    (h : nd ∈ chainReplaceFirst chain n) :
    nd ∈ chain ∨ ∃ x ∈ chain, x.key = n.key ∧ nd = ⟨x.key, n.valCell, x.hash⟩ := by
  induction chain with
  | nil => cases h
  | cons x rest ih =>
    by_cases hxk : x.key = n.key
    · simp only [chainReplaceFirst, hxk, if_true] at h
      rcases List.mem_cons.mp h with hx | hrest
      · exact Or.inr ⟨x, List.mem_cons_self x rest, hxk, by rw [hx, hxk]⟩
      · exact Or.inl (List.mem_cons_of_mem x hrest)
    · simp only [chainReplaceFirst, hxk, if_false] at h
      rcases List.mem_cons.mp h with hx | hrest
      · exact Or.inl (hx ▸ List.mem_cons_self x rest)
      · rcases ih hrest with hin | ⟨y, hy, hyk, hnd⟩
        · exact Or.inl (List.mem_cons_of_mem x hin)
        · exact Or.inr ⟨y, List.mem_cons_of_mem x hy, hyk, hnd⟩

/-- Unfold `mapGet` through the bucket of `k'`. -/
theorem mapGet_eq (hash : Nat → Nat) (m : MapSt) (k' : Nat)
    (chain : List ENode)
    (hb : m.table.buckets[indexOf m.table (hash k')]? = some chain) :
    mapGet hash m k' = (chainSearch chain k').bind (fun cid => m.cells[cid]?) := by
  unfold mapGet tableGet
  rw [hb]

theorem chainSearch_append_self' (chain : List ENode) (key cell hsh : Nat)
    (h : chainSearch chain key = none) :
    chainSearch (chain ++ [⟨key, cell, hsh⟩]) key = some cell :=
  chainSearch_append_self chain ⟨key, cell, hsh⟩ h

theorem chainSearch_replace_self' (chain : List ENode) (key cell hsh : Nat)
    (old : Nat) (h : chainSearch chain key = some old) :
    chainSearch (chainReplaceFirst chain ⟨key, cell, hsh⟩) key = some cell :=
  chainSearch_replace_self chain ⟨key, cell, hsh⟩ old h

theorem mapInsert_absent_spec (hash : Nat → Nat) (m : MapSt) (k v : Nat)
    (hinv : TblInv hash m) (chain : List ENode)
    (hb : m.table.buckets[indexOf m.table (hash k)]? = some chain)
    (hsearch : chainSearch chain k = none) :
    TblInv hash (mapInsert hash m k v).1
    ∧ (∀ k', mapGet hash (mapInsert hash m k v).1 k'
        = if k = k' then some v else mapGet hash m k')
    ∧ (mapInsert hash m k v).1.table.entryCount = m.table.entryCount + 1 := by
  obtain ⟨hpow, hlen, hnode, hnodup⟩ := hinv
  have hi : indexOf m.table (hash k) < m.table.buckets.length :=
    indexOf_lt _ hpow hlen _
  have heq := tableInsert_absent m.table ⟨k, m.cells.length, hash k⟩ chain hb hsearch
  set t2 : TableSt :=
    ⟨m.table.size, m.table.capacity, m.table.entryCount + 1,
     m.table.buckets.set (indexOf m.table (hash k))
       (chain ++ [⟨k, m.cells.length, hash k⟩])⟩ with ht2
  have hm' : (mapInsert hash m k v).1 = ⟨m.cells ++ [v], t2⟩ := by
    simp only [mapInsert]
    rw [heq]
  have hix : ∀ hh, indexOf t2 hh = indexOf m.table hh := fun hh =>
    indexOf_size_congr m.table t2 (by rw [ht2]) hh
  have hblen2 : t2.buckets.length = m.table.buckets.length := by
    rw [ht2]
    exact List.length_set m.table.buckets _ _
  have hbt2self : t2.buckets[indexOf m.table (hash k)]?
      = some (chain ++ [⟨k, m.cells.length, hash k⟩]) := by
    rw [ht2]
    exact List.getElem?_set_self (by simpa using hi)
  have hbt2ne : ∀ j, j ≠ indexOf m.table (hash k) →
      t2.buckets[j]? = m.table.buckets[j]? := by
    intro j hj
    rw [ht2]
    exact List.getElem?_set_ne (fun a => hj a.symm)
  refine ⟨?_, ?_, ?_⟩
  · rw [hm']
    refine ⟨hpow, by rw [hblen2, hlen], ?_, ?_⟩
    · intro j chain' hj nd hnd
      by_cases hji : j = indexOf m.table (hash k)
      · subst hji
        rw [hbt2self] at hj
        obtain rfl : chain' = chain ++ [⟨k, m.cells.length, hash k⟩] :=
          (Option.some_inj.mp hj).symm
        rcases List.mem_append.mp hnd with hin | hn
        · obtain ⟨h1, h2, h3⟩ := hnode _ chain hb nd hin
          refine ⟨h1, (hix nd.hash).trans h2, ?_⟩
          simp only [List.length_append, List.length_cons, List.length_nil]
          omega
        · obtain rfl := List.mem_singleton.mp hn
          refine ⟨rfl, hix (hash k), by simp⟩
      · rw [hbt2ne j hji] at hj
        obtain ⟨h1, h2, h3⟩ := hnode _ chain' hj nd hnd
        refine ⟨h1, (hix nd.hash).trans h2, ?_⟩
        simp only [List.length_append, List.length_cons, List.length_nil]
        omega
    · intro j chain' hj
      by_cases hji : j = indexOf m.table (hash k)
      · subst hji
        rw [hbt2self] at hj
        obtain rfl : chain' = chain ++ [⟨k, m.cells.length, hash k⟩] :=
          (Option.some_inj.mp hj).symm
        rw [List.map_append]
        refine List.Nodup.append (hnodup _ chain hb) (List.nodup_singleton _) ?_
        intro a ha hain
        have hak : a = k := by simpa using hain
        obtain ⟨nd, hmem, hkey⟩ := List.mem_map.mp ha
        exact chainSearch_none_key chain k hsearch nd hmem (hkey.trans hak)
      · rw [hbt2ne j hji] at hj
        exact hnodup _ chain' hj
  · intro k'
    rw [hm']
    by_cases hkk : k = k'
    · subst k'
      rw [mapGet_eq hash ⟨m.cells ++ [v], t2⟩ k
          (chain ++ [⟨k, m.cells.length, hash k⟩])
          (by rw [show (MapSt.mk (m.cells ++ [v]) t2).table = t2 from rfl, hix]
              exact hbt2self)]
      rw [chainSearch_append_self' chain k m.cells.length (hash k) hsearch]
      simp
    · have hne : k' ≠ k := fun a => hkk a.symm
      simp only [hkk, if_false]
      by_cases hii : indexOf m.table (hash k') = indexOf m.table (hash k)
      · rw [mapGet_eq hash ⟨m.cells ++ [v], t2⟩ k'
            (chain ++ [⟨k, m.cells.length, hash k⟩])
            (by rw [show (MapSt.mk (m.cells ++ [v]) t2).table = t2 from rfl, hix, hii]
                exact hbt2self)]
        rw [mapGet_eq hash m k' chain (by rw [hii]; exact hb)]
        rw [chainSearch_append_other chain _ k' hne]
        cases hcs : chainSearch chain k' with
        | none => rfl
        | some cid =>
          obtain ⟨nd, hmem, hkey, hcell⟩ := chainSearch_mem chain k' cid hcs
          obtain ⟨h1, h2, h3⟩ := hnode _ chain hb nd hmem
          simp only [Option.some_bind]
          exact List.getElem?_append_left (by omega)
      · have hi' : indexOf m.table (hash k') < m.table.buckets.length :=
          indexOf_lt _ hpow hlen _
        obtain ⟨cold, hbold⟩ : ∃ ch, m.table.buckets[indexOf m.table (hash k')]?
            = some ch := ⟨_, List.getElem?_eq_getElem hi'⟩
        rw [mapGet_eq hash ⟨m.cells ++ [v], t2⟩ k' cold
            (by rw [show (MapSt.mk (m.cells ++ [v]) t2).table = t2 from rfl, hix,
                  hbt2ne _ hii]
                exact hbold)]
        rw [mapGet_eq hash m k' _ hbold]
        cases hcs : chainSearch cold k' with
        | none => rfl
        | some cid =>
          obtain ⟨nd, hmem, hkey, hcell⟩ := chainSearch_mem _ k' cid hcs
          obtain ⟨h1, h2, h3⟩ := hnode _ _ hbold nd hmem
          simp only [Option.some_bind]
          exact List.getElem?_append_left (by omega)
  · rw [hm']

theorem mapInsert_present_spec (hash : Nat → Nat) (m : MapSt) (k v : Nat)
    (hinv : TblInv hash m) (chain : List ENode) (old : Nat)
    (hb : m.table.buckets[indexOf m.table (hash k)]? = some chain)
    (hsearch : chainSearch chain k = some old) :
    TblInv hash (mapInsert hash m k v).1
    ∧ (∀ k', mapGet hash (mapInsert hash m k v).1 k'
        = if k = k' then some v else mapGet hash m k')
    ∧ (mapInsert hash m k v).1.table.entryCount = m.table.entryCount := by
  obtain ⟨hpow, hlen, hnode, hnodup⟩ := hinv
  have hi : indexOf m.table (hash k) < m.table.buckets.length :=
    indexOf_lt _ hpow hlen _
  have heq := tableInsert_present m.table ⟨k, m.cells.length, hash k⟩ chain old hb hsearch
  set t2 : TableSt :=
    ⟨m.table.size, m.table.capacity, m.table.entryCount,
     m.table.buckets.set (indexOf m.table (hash k))
       (chainReplaceFirst chain ⟨k, m.cells.length, hash k⟩)⟩ with ht2
  have hm' : (mapInsert hash m k v).1 = ⟨m.cells ++ [v], t2⟩ := by
    simp only [mapInsert]
    rw [heq]
  have hix : ∀ hh, indexOf t2 hh = indexOf m.table hh := fun hh =>
    indexOf_size_congr m.table t2 (by rw [ht2]) hh
  have hblen2 : t2.buckets.length = m.table.buckets.length := by
    rw [ht2]
    exact List.length_set m.table.buckets _ _
  have hbt2self : t2.buckets[indexOf m.table (hash k)]?
      = some (chainReplaceFirst chain ⟨k, m.cells.length, hash k⟩) := by
    rw [ht2]
    exact List.getElem?_set_self (by simpa using hi)
  have hbt2ne : ∀ j, j ≠ indexOf m.table (hash k) →
      t2.buckets[j]? = m.table.buckets[j]? := by
    intro j hj
    rw [ht2]
    exact List.getElem?_set_ne (fun a => hj a.symm)
  refine ⟨?_, ?_, ?_⟩
  · rw [hm']
    refine ⟨hpow, by rw [hblen2, hlen], ?_, ?_⟩
    · intro j chain' hj nd hnd
      by_cases hji : j = indexOf m.table (hash k)
      · subst hji
        rw [hbt2self] at hj
        obtain rfl : chain' = chainReplaceFirst chain ⟨k, m.cells.length, hash k⟩ :=
          (Option.some_inj.mp hj).symm
        rcases chainReplaceFirst_mem chain _ nd hnd with hin | ⟨x, hx, hxk, hnd'⟩
        · obtain ⟨h1, h2, h3⟩ := hnode _ chain hb nd hin
          refine ⟨h1, (hix nd.hash).trans h2, ?_⟩
          simp only [List.length_append, List.length_cons, List.length_nil]
          omega
        · obtain ⟨h1, h2, h3⟩ := hnode _ chain hb x hx
          subst hnd'
          refine ⟨by simpa using h1, ?_, by simp⟩
          refine (hix x.hash).trans ?_
          rw [h2]
      · rw [hbt2ne j hji] at hj
        obtain ⟨h1, h2, h3⟩ := hnode _ chain' hj nd hnd
        refine ⟨h1, (hix nd.hash).trans h2, ?_⟩
        simp only [List.length_append, List.length_cons, List.length_nil]
        omega
    · intro j chain' hj
      by_cases hji : j = indexOf m.table (hash k)
      · subst hji
        rw [hbt2self] at hj
        obtain rfl : chain' = chainReplaceFirst chain ⟨k, m.cells.length, hash k⟩ :=
          (Option.some_inj.mp hj).symm
        rw [chainReplaceFirst_keys]
        exact hnodup _ chain hb
      · rw [hbt2ne j hji] at hj
        exact hnodup _ chain' hj
  · intro k'
    rw [hm']
    by_cases hkk : k = k'
    · subst k'
      rw [mapGet_eq hash ⟨m.cells ++ [v], t2⟩ k
          (chainReplaceFirst chain ⟨k, m.cells.length, hash k⟩)
          (by rw [show (MapSt.mk (m.cells ++ [v]) t2).table = t2 from rfl, hix]
              exact hbt2self)]
      rw [chainSearch_replace_self' chain k m.cells.length (hash k) old hsearch]
      simp
    · have hne : k' ≠ k := fun a => hkk a.symm
      simp only [hkk, if_false]
      by_cases hii : indexOf m.table (hash k') = indexOf m.table (hash k)
      · rw [mapGet_eq hash ⟨m.cells ++ [v], t2⟩ k'
            (chainReplaceFirst chain ⟨k, m.cells.length, hash k⟩)
            (by rw [show (MapSt.mk (m.cells ++ [v]) t2).table = t2 from rfl, hix, hii]
                exact hbt2self)]
        rw [mapGet_eq hash m k' chain (by rw [hii]; exact hb)]
        rw [chainSearch_replace_other chain _ k' hne]
        cases hcs : chainSearch chain k' with
        | none => rfl
        | some cid =>
          obtain ⟨nd, hmem, hkey, hcell⟩ := chainSearch_mem chain k' cid hcs
          obtain ⟨h1, h2, h3⟩ := hnode _ chain hb nd hmem
          simp only [Option.some_bind]
          exact List.getElem?_append_left (by omega)
      · have hi' : indexOf m.table (hash k') < m.table.buckets.length :=
          indexOf_lt _ hpow hlen _
        obtain ⟨cold, hbold⟩ : ∃ ch, m.table.buckets[indexOf m.table (hash k')]?
            = some ch := ⟨_, List.getElem?_eq_getElem hi'⟩
        rw [mapGet_eq hash ⟨m.cells ++ [v], t2⟩ k' cold
            (by rw [show (MapSt.mk (m.cells ++ [v]) t2).table = t2 from rfl, hix,
                  hbt2ne _ hii]
                exact hbold)]
        rw [mapGet_eq hash m k' _ hbold]
        cases hcs : chainSearch cold k' with
        | none => rfl
        | some cid =>
          obtain ⟨nd, hmem, hkey, hcell⟩ := chainSearch_mem _ k' cid hcs
          obtain ⟨h1, h2, h3⟩ := hnode _ _ hbold nd hmem
          simp only [Option.some_bind]
          exact List.getElem?_append_left (by omega)
  · rw [hm']

theorem mapInsert_spec (hash : Nat → Nat) (m : MapSt) (k v : Nat)
    (hinv : TblInv hash m) :
    TblInv hash (mapInsert hash m k v).1
    ∧ (∀ k', mapGet hash (mapInsert hash m k v).1 k'
        = if k = k' then some v else mapGet hash m k')
    ∧ (mapInsert hash m k v).1.table.entryCount
        = m.table.entryCount + (if mapGet hash m k = none then 1 else 0) := by
  have hi : indexOf m.table (hash k) < m.table.buckets.length :=
    indexOf_lt _ hinv.capPow hinv.blen _
  obtain ⟨ch0, hb⟩ : ∃ ch, m.table.buckets[indexOf m.table (hash k)]? = some ch :=
    ⟨_, List.getElem?_eq_getElem hi⟩
  cases hcs : chainSearch ch0 k with
  | none =>
    have h3 := mapInsert_absent_spec hash m k v hinv _ hb hcs
    have hnone : mapGet hash m k = none := by
      rw [mapGet_eq hash m k _ hb, hcs]
      rfl
    refine ⟨h3.1, h3.2.1, ?_⟩
    rw [h3.2.2, hnone]
    rfl
  | some old =>
    have h3 := mapInsert_present_spec hash m k v hinv _ old hb hcs
    have hsome : mapGet hash m k ≠ none := by
      rw [mapGet_eq hash m k _ hb, hcs]
      obtain ⟨nd, hmem, hkey, hcell⟩ := chainSearch_mem _ k old hcs
      obtain ⟨h1, h2, h3'⟩ := hinv.nodeOK _ _ hb nd hmem
      simp only [Option.some_bind]
      rw [List.getElem?_eq_getElem (by omega)]
      simp
    refine ⟨h3.1, h3.2.1, ?_⟩
    rw [h3.2.2]
    cases hmg : mapGet hash m k with
    | none => exact absurd hmg hsome
    | some w => simp

theorem tblInv_mapNew (hash : Nat → Nat) (size : Nat) :
    TblInv hash (mapNew size) := by
  refine ⟨?_, ?_, ?_, ?_⟩
  · simp [mapNew, tableNew, Nat.shiftLeft_eq]
  · simp [mapNew, tableNew]
  · intro i chain hj nd hnd
    simp only [mapNew, tableNew, List.getElem?_replicate] at hj
    by_cases hilt : i < 1 <<< max size 4
    · simp only [hilt, if_true, Option.some_inj] at hj
      subst hj
      cases hnd
    · simp [hilt] at hj
  · intro i chain hj
    simp only [mapNew, tableNew, List.getElem?_replicate] at hj
    by_cases hilt : i < 1 <<< max size 4
    · simp only [hilt, if_true, Option.some_inj] at hj
      subst hj
      exact List.nodup_nil
    · simp [hilt] at hj

theorem mapGet_mapNew (hash : Nat → Nat) (size : Nat) (k : Nat) :
    mapGet hash (mapNew size) k = none := by
  have hlt : hash k % 2 ^ max size 4 < 1 <<< max size 4 := by
    rw [Nat.shiftLeft_eq, one_mul]
    exact Nat.mod_lt _ (Nat.pos_pow_of_pos _ (by norm_num))
  simp only [mapGet, tableGet, mapNew, tableNew, indexOf_eq_mod,
    List.getElem?_replicate]
  simp [hlt, chainSearch]

theorem runInserts_get (hash : Nat → Nat) (ops : List (Nat × Nat)) (m : MapSt)
    (hinv : TblInv hash m) (k : Nat) :
    TblInv hash (runInserts hash m ops)
    ∧ mapGet hash (runInserts hash m ops) k
      = ops.foldl (fun acc kv => if kv.1 = k then some kv.2 else acc)
          (mapGet hash m k) := by
  induction ops generalizing m with
  | nil => exact ⟨hinv, rfl⟩
  | cons kv ops ih =>
    have hstep := mapInsert_spec hash m kv.1 kv.2 hinv
    have hrest := ih (mapInsert hash m kv.1 kv.2).1 hstep.1
    refine ⟨hrest.1, ?_⟩
    simp only [runInserts, List.foldl_cons] at hrest ⊢
    rw [hrest.2, hstep.2.1 k]

theorem runInserts_count (hash : Nat → Nat) (ops : List (Nat × Nat)) (m : MapSt)
    (hinv : TblInv hash m)
    (hfresh : ∀ kv ∈ ops, mapGet hash m kv.1 = none)
    (hnodup : (ops.map Prod.fst).Nodup) :
    (runInserts hash m ops).table.entryCount = m.table.entryCount + ops.length := by
  induction ops generalizing m with
  | nil => rfl
  | cons kv ops ih =>
    have hstep := mapInsert_spec hash m kv.1 kv.2 hinv
    have hkvnone : mapGet hash m kv.1 = none := hfresh kv (List.mem_cons_self kv ops)
    have hnotin : kv.1 ∉ ops.map Prod.fst := by
      simp only [List.map_cons, List.nodup_cons] at hnodup
      exact hnodup.1
    have hfresh' : ∀ kv' ∈ ops, mapGet hash (mapInsert hash m kv.1 kv.2).1 kv'.1 = none := by
      intro kv' hmem
      rw [hstep.2.1 kv'.1]
      have hne : kv.1 ≠ kv'.1 := by
        intro a
        exact hnotin (a ▸ List.mem_map_of_mem Prod.fst hmem)
      simp only [hne, if_false]
      exact hfresh kv' (List.mem_cons_of_mem kv hmem)
    have hnodup' : (ops.map Prod.fst).Nodup := by
      simp only [List.map_cons, List.nodup_cons] at hnodup
      exact hnodup.2
    have hrest := ih (mapInsert hash m kv.1 kv.2).1 hstep.1 hfresh' hnodup'
    simp only [runInserts, List.foldl_cons] at hrest ⊢
    rw [hrest, hstep.2.2, hkvnone]
    simp only [if_true, List.length_cons]
    omega

/-- C3: after any sequence of `insert(k, v)` calls on a fresh `PlugMap`
(any hasher, any requested size), `get(k)` returns the value of the most
recent insert for `k`, `get` on a never-inserted key returns `none`
(`latestVal` is `none` for such keys), and after inserting `N` distinct
keys `entry_count` equals `N`. -/
theorem map_get_latest_C3 (hash : Nat → Nat) (size : Nat)
    (ops : List (Nat × Nat)) (k : Nat) :
    mapGet hash (runInserts hash (mapNew size) ops) k = latestVal ops k
    ∧ ((ops.map Prod.fst).Nodup →
        (runInserts hash (mapNew size) ops).table.entryCount = ops.length) := by
  constructor
  · have h := (runInserts_get hash ops (mapNew size) (tblInv_mapNew hash size) k).2
    rw [h, mapGet_mapNew]
    rfl
  · intro hnd
    have h := runInserts_count hash ops (mapNew size) (tblInv_mapNew hash size)
      (fun kv _ => mapGet_mapNew hash size kv.1) hnd
    rw [h]
    simp [mapNew, tableNew]

/-- Witness for `map_get_latest_C3`: two distinct inserts with the
identity hasher; `get 1` sees the value of the most recent insert of
key 1 and `entry_count` is 2. -/
theorem map_get_latest_C3_witness :
    mapGet id (runInserts id (mapNew 4) [(1, 10), (2, 20)]) 1
        = latestVal [(1, 10), (2, 20)] 1
    ∧ (runInserts id (mapNew 4) [(1, 10), (2, 20)]).table.entryCount = 2 :=
  ⟨(map_get_latest_C3 id 4 [(1, 10), (2, 20)] 1).1,
   (map_get_latest_C3 id 4 [(1, 10), (2, 20)] 1).2 (by decide)⟩

/-! ### Accessor counting invariant (for C7) -/

/-- Contribution of one keep slot to the reference count of cell `t`. -/
def refOf : Option Nat → Nat → Nat
  | some u, t => if u = t then 1 else 0
  | none, _ => 0

theorem countRefs_append (l l' : List (Option Nat)) (t : Nat) :
    countRefs (l ++ l') t = countRefs l t + countRefs l' t := by
  induction l with
  | nil => simp [countRefs]
  | cons x rest ih =>
    cases x with
    | none => simpa [countRefs] using ih
    | some u => simp [countRefs, ih]; omega

theorem countRefs_singleton (x : Option Nat) (t : Nat) :
    countRefs [x] t = refOf x t := by
  cases x <;> rfl

theorem countRefs_set (l : List (Option Nat)) (k : Nat) (a b : Option Nat) (t : Nat)
    (h : l[k]? = some a) :
    countRefs (l.set k b) t + refOf a t = countRefs l t + refOf b t := by
  induction l generalizing k with
  | nil => simp at h
  | cons x rest ih =>
    cases k with
    | zero =>
      simp only [List.getElem?_cons_zero, Option.some_inj] at h
      subst h
      cases x <;> cases b <;> simp [countRefs, refOf, List.set] <;> omega
    | succ j =>
      simp only [List.getElem?_cons_succ] at h
      have := ih j h
      cases x <;> simp [countRefs, List.set, refOf] at * <;> omega

theorem countRefs_pos (l : List (Option Nat)) (k t : Nat)
    (h : l[k]? = some (some t)) : 0 < countRefs l t := by
  induction l generalizing k with
  | nil => simp at h
  | cons x rest ih =>
    cases k with
    | zero =>
      simp only [List.getElem?_cons_zero, Option.some_inj] at h
      subst h
      simp [countRefs]
    | succ j =>
      simp only [List.getElem?_cons_succ] at h
      have := ih j h
      cases x with
      | none => simpa [countRefs] using this
      | some u => simp [countRefs]; omega

theorem countRefs_zero_of_big (l : List (Option Nat)) (t : Nat)
    (h : ∀ (k u : Nat), l[k]? = some (some u) → u ≠ t) : countRefs l t = 0 := by
  induction l with
  | nil => rfl
  | cons x rest ih =>
    have hrest : ∀ (k u : Nat), rest[k]? = some (some u) → u ≠ t := by
      intro k u hk
      exact h (k + 1) u (by simpa using hk)
    cases x with
    | none => simpa [countRefs] using ih hrest
    | some u =>
      have hu : u ≠ t := h 0 u (by simp)
      simp [countRefs, hu, ih hrest]

theorem domInsert_get_self (d : List (Option Nat)) (p : Nat) :
    (domInsert d p).1[(domInsert d p).2]? = some (some p) := by
  induction d with
  | nil => simp [domInsert]
  | cons x rest ih =>
    cases x with
    | none => simp [domInsert]
    | some q => simpa [domInsert] using ih

theorem domInsert_preserve (d : List (Option Nat)) (p : Nat) (i q : Nat)
    (h : d[i]? = some (some q)) :
    (domInsert d p).1[i]? = some (some q) := by
  induction d generalizing i with
  | nil => simp at h
  | cons x rest ih =>
    cases x with
    | none =>
      cases i with
      | zero => simp at h
      | succ j => simpa [domInsert] using h
    | some u =>
      cases i with
      | zero => simpa [domInsert] using h
      | succ j =>
        simp only [List.getElem?_cons_succ] at h
        simpa [domInsert] using ih j h

theorem domInsert_fresh (d : List (Option Nat)) (p : Nat) (i q : Nat)
    (h : d[i]? = some (some q)) : (domInsert d p).2 ≠ i := by
  induction d generalizing i with
  | nil => simp at h
  | cons x rest ih =>
    cases x with
    | none =>
      cases i with
      | zero => simp at h
      | succ j => simp [domInsert]
    | some u =>
      cases i with
      | zero => simp [domInsert]
      | succ j =>
        simp only [List.getElem?_cons_succ] at h
        simpa [domInsert] using ih j h

theorem clearAt_get_ne (d : List (Option Nat)) (n p i : Nat) (h : i ≠ n) :
    (clearAt d n p)[i]? = d[i]? := by
  unfold clearAt
  cases hd : d[n]? with
  | none => rfl
  | some s =>
    cases s with
    | none => rfl
    | some q =>
      by_cases hq : q = p
      · simp only [hq, if_true]
        exact List.getElem?_set_ne (fun a => h a.symm)
      · simp [hq]

theorem not_allEmpty_of_slot (d : List (Option Nat)) (i q : Nat)
    (h : d[i]? = some (some q)) : isAllEmptyB d = false := by
  induction d generalizing i with
  | nil => simp at h
  | cons x rest ih =>
    cases i with
    | zero =>
      simp only [List.getElem?_cons_zero, Option.some_inj] at h
      subst h
      simp [isAllEmptyB]
    | succ j =>
      simp only [List.getElem?_cons_succ] at h
      have hr := ih j h
      simp only [isAllEmptyB, List.all_cons] at hr ⊢
      simp [hr]

theorem containsOrEmptyGo_none (p : Nat) (d : List (Option Nat)) (b : Bool)
    (h : containsOrEmptyGo p d b = none) :
    d.all (fun s => s = none) = true ∧ b = true := by
  induction d generalizing b with
  | nil =>
    cases b
    · simp [containsOrEmptyGo] at h
    · exact ⟨rfl, rfl⟩
  | cons s rest ih =>
    simp only [containsOrEmptyGo] at h
    split at h
    · cases h
    · obtain ⟨h1, h2⟩ := ih _ h
      cases s with
      | none =>
        refine ⟨?_, by simpa using h2⟩
        simp [h1]
      | some q => simp at h2

theorem containsOrEmpty_none_imp (d : List (Option Nat)) (p : Nat)
    (h : containsOrEmpty d p = none) : isAllEmptyB d = true :=
  (containsOrEmptyGo_none p d true h).1

theorem dropMutation_fields (c : CellSt) (m : Nat) :
    (dropMutation c m).1.accessorCount = c.accessorCount
    ∧ (dropMutation c m).1.domain = c.domain
    ∧ (dropMutation c m).1.destroyed = c.destroyed
    ∧ (dropMutation c m).1.current = c.current := by
  unfold dropMutation
  cases hm : c.muts[m]? with
  | none => exact ⟨rfl, rfl, rfl, rfl⟩
  | some mu =>
    by_cases hf : mu.freed = true
    · simp [hf]
    · rw [Bool.not_eq_true] at hf
      simp [hf]

theorem destroyCell_fields (c : CellSt) :
    (destroyCell c).accessorCount = c.accessorCount
    ∧ (destroyCell c).domain = c.domain
    ∧ (destroyCell c).destroyed = true := by
  unfold destroyCell
  exact ⟨(dropMutation_fields c c.current).1, (dropMutation_fields c c.current).2.1, rfl⟩

theorem tryDropC_fields (c : CellSt) (m : Nat) :
    (tryDropC c m).accessorCount = c.accessorCount
    ∧ (tryDropC c m).domain = c.domain := by
  unfold tryDropC
  by_cases h1 : c.current = m ∧ c.accessorCount ≠ 0
  · simp [h1]
  · rw [if_neg h1]
    by_cases h2 : c.accessorCount = 0
    · rw [if_pos h2]
      cases hco : containsOrEmpty c.domain m with
      | some b =>
        cases b with
        | false => exact ⟨(dropMutation_fields c m).1, (dropMutation_fields c m).2.1⟩
        | true => exact ⟨rfl, rfl⟩
      | none =>
        by_cases hok : (dropMutation c m).2 = true
        · simp only [hok, if_true]
          refine ⟨?_, ?_⟩
          · rw [(destroyCell_fields _).1, (dropMutation_fields c m).1]
          · rw [(destroyCell_fields _).2.1, (dropMutation_fields c m).2.1]
        · rw [Bool.not_eq_true] at hok
          simp only [hok, Bool.false_eq_true, if_false]
          exact ⟨(dropMutation_fields c m).1, (dropMutation_fields c m).2.1⟩
    · rw [if_neg h2]
      by_cases h3 : containsB c.domain m = true
      · simp [h3]
      · rw [Bool.not_eq_true] at h3
        simp only [h3, Bool.false_eq_true, if_false]
        exact ⟨(dropMutation_fields c m).1, (dropMutation_fields c m).2.1⟩

theorem tryDropC_destroyed (c : CellSt) (m : Nat)
    (h : (tryDropC c m).destroyed = true) :
    c.destroyed = true ∨ (c.accessorCount = 0 ∧ isAllEmptyB c.domain = true) := by
  unfold tryDropC at h
  by_cases h1 : c.current = m ∧ c.accessorCount ≠ 0
  · rw [if_pos h1] at h
    exact Or.inl h
  · rw [if_neg h1] at h
    by_cases h2 : c.accessorCount = 0
    · rw [if_pos h2] at h
      cases hco : containsOrEmpty c.domain m with
      | some b =>
        rw [hco] at h
        cases b with
        | false =>
          rw [(dropMutation_fields c m).2.2.1] at h
          exact Or.inl h
        | true => exact Or.inl h
      | none =>
        exact Or.inr ⟨h2, containsOrEmpty_none_imp c.domain m hco⟩
    · rw [if_neg h2] at h
      by_cases h3 : containsB c.domain m = true
      · simp only [h3, if_true] at h
        exact Or.inl h
      · rw [Bool.not_eq_true] at h3
        simp only [h3, Bool.false_eq_true, if_false] at h
        rw [(dropMutation_fields c m).2.2.1] at h
        exact Or.inl h

theorem storeC_fields (c : CellSt) (v : Nat) :
    (storeC c v).accessorCount = c.accessorCount
    ∧ (storeC c v).domain = c.domain := by
  simp only [storeC]
  exact ⟨(tryDropC_fields _ _).1, (tryDropC_fields _ _).2⟩

theorem storeC_destroyed (c : CellSt) (v : Nat)
    (h : (storeC c v).destroyed = true) :
    c.destroyed = true ∨ (c.accessorCount = 0 ∧ isAllEmptyB c.domain = true) := by
  simp only [storeC] at h
  rcases tryDropC_destroyed _ _ h with h' | h'
  · exact Or.inl h'
  · exact Or.inr h'

/-- System invariant for C7: (1) each cell's `accessor_count` equals the
number of live `Keep` handles referencing it; (2) live keeps reference
existing cells; (3) every live guard has its pointer registered in its
cell's hazard domain at its node; (4) distinct live guards on the same
cell occupy distinct domain nodes; (5) a destroyed cell has a zero
accessor count and an entirely empty domain — teardown happens only in
that situation. -/
structure SysInv (s : Sys) : Prop where
  counts : ∀ (t : Nat) (c : CellSt), s.cells[t]? = some c →
      c.accessorCount = countRefs s.keeps t
  ktargets : ∀ (k t : Nat), s.keeps[k]? = some (some t) → t < s.cells.length
  gwf : ∀ (gi : Nat) (gu : GuardSt), s.guards[gi]? = some (some gu) →
      ∃ c, s.cells[gu.cell]? = some c ∧ c.domain[gu.node]? = some (some gu.ptr)
  gdist : ∀ (gi gj : Nat) (gu gv : GuardSt), s.guards[gi]? = some (some gu) →
      s.guards[gj]? = some (some gv) → gi ≠ gj → gu.cell = gv.cell →
      gu.node ≠ gv.node
  dead : ∀ (t : Nat) (c : CellSt), s.cells[t]? = some c → c.destroyed = true →
      c.accessorCount = 0 ∧ isAllEmptyB c.domain = true

theorem getElem?_concat_cases {α : Type} (l : List α) (x : α) (i : Nat) (y : α)
    (h : (l ++ [x])[i]? = some y) : l[i]? = some y ∨ (i = l.length ∧ y = x) := by
  rcases lt_or_ge i l.length with hi | hi
  · left
    rwa [List.getElem?_append_left hi] at h
  · right
    rw [List.getElem?_append_right hi] at h
    rcases Nat.eq_or_lt_of_le hi with he | hl
    · refine ⟨he.symm, ?_⟩
      rw [← he, Nat.sub_self] at h
      simpa using h.symm
    · rw [List.getElem?_eq_none (by simp only [List.length_cons, List.length_nil]; omega)] at h
      cases h

theorem sysInv_guard_append (s : Sys) (t : Nat) (c c' : CellSt) (p : Nat)
    (hs : SysInv s)
    (hc : s.cells[t]? = some c)
    (hacc : c'.accessorCount = c.accessorCount)
    (hdes : c'.destroyed = c.destroyed)
    (hdom : c'.domain = (domInsert c.domain p).1)
    (hnotdead : c.destroyed = false) :
    SysInv ⟨s.cells.set t c', s.keeps,
            s.guards ++ [some ⟨t, p, (domInsert c.domain p).2⟩]⟩ := by
  have hlen : (s.cells.set t c').length = s.cells.length := List.length_set s.cells t c'
  have hget : ∀ (u : Nat) (d : CellSt), (s.cells.set t c')[u]? = some d →
      (u = t ∧ d = c') ∨ (u ≠ t ∧ s.cells[u]? = some d) := by
    intro u d hu
    by_cases hut : u = t
    · subst hut
      rw [List.getElem?_set_self'] at hu
      rw [hc] at hu
      exact Or.inl ⟨rfl, by simpa using hu.symm⟩
    · rw [List.getElem?_set_ne (fun a => hut a.symm)] at hu
      exact Or.inr ⟨hut, hu⟩
  refine ⟨?_, ?_, ?_, ?_, ?_⟩
  · intro u d hu
    rcases hget u d hu with ⟨hu1, hd1⟩ | ⟨hut, hu'⟩
    · rw [hd1, hacc, hu1]
      exact hs.counts t c hc
    · exact hs.counts u d hu'
  · intro k u hk
    rw [hlen]
    exact hs.ktargets k u hk
  · intro gi gu hg
    rcases getElem?_concat_cases s.guards _ gi _ hg with hold | ⟨hgi, hnew⟩
    · obtain ⟨d, hd, hslot⟩ := hs.gwf gi gu hold
      by_cases hut : gu.cell = t
      · subst hut
        refine ⟨c', ?_, ?_⟩
        · rw [List.getElem?_set_self']
          rw [hd]
          rfl
        · rw [hdom]
          have : d = c := by
            rw [hd] at hc
            exact Option.some_inj.mp hc
          subst this
          exact domInsert_preserve d.domain p gu.node gu.ptr hslot
      · refine ⟨d, ?_, hslot⟩
        rw [List.getElem?_set_ne (fun a => hut a.symm)]
        exact hd
    · obtain rfl : gu = ⟨t, p, (domInsert c.domain p).2⟩ := by
        simpa using hnew
      refine ⟨c', ?_, ?_⟩
      · rw [List.getElem?_set_self']
        rw [hc]
        rfl
      · rw [hdom]
        exact domInsert_get_self c.domain p
  · intro gi gj gu gv hgi hgj hne hcell
    rcases getElem?_concat_cases s.guards _ gi _ hgi with hi_old | ⟨hgi', hgu⟩ <;>
      rcases getElem?_concat_cases s.guards _ gj _ hgj with hj_old | ⟨hgj', hgv⟩
    · exact hs.gdist gi gj gu gv hi_old hj_old hne hcell
    · obtain rfl : gv = ⟨t, p, (domInsert c.domain p).2⟩ := by simpa using hgv
      obtain ⟨d, hd, hslot⟩ := hs.gwf gi gu hi_old
      have hdc : d = c := by
        rw [hcell] at hd
        rw [hd] at hc
        exact Option.some_inj.mp hc
      subst hdc
      intro hnn
      exact domInsert_fresh d.domain p gu.node gu.ptr hslot (hnn.symm)
    · obtain rfl : gu = ⟨t, p, (domInsert c.domain p).2⟩ := by simpa using hgu
      obtain ⟨d, hd, hslot⟩ := hs.gwf gj gv hj_old
      have hdc : d = c := by
        rw [← hcell] at hd
        rw [hd] at hc
        exact Option.some_inj.mp hc
      subst hdc
      intro hnn
      exact domInsert_fresh d.domain p gv.node gv.ptr hslot hnn
    · exact absurd (hgi'.trans hgj'.symm) hne
  · intro u d hu hdes'
    rcases hget u d hu with ⟨hu1, hd1⟩ | ⟨hut, hu'⟩
    · rw [hd1, hdes, hnotdead] at hdes'
      cases hdes'
    · exact hs.dead u d hu' hdes'

theorem sysInv_cell_keeps (s : Sys) (t : Nat) (c c' : CellSt)
    (keeps' : List (Option Nat)) (hs : SysInv s)
    (hc : s.cells[t]? = some c)
    (hdom : c'.domain = c.domain)
    (hacc : c'.accessorCount = countRefs keeps' t)
    (hoth : ∀ u, u ≠ t → countRefs keeps' u = countRefs s.keeps u)
    (hktar : ∀ (k u : Nat), keeps'[k]? = some (some u) → u < s.cells.length)
    (hdeadc : c'.destroyed = true →
        c'.accessorCount = 0 ∧ isAllEmptyB c'.domain = true) :
    SysInv ⟨s.cells.set t c', keeps', s.guards⟩ := by
  have hget : ∀ (u : Nat) (d : CellSt), (s.cells.set t c')[u]? = some d →
      (u = t ∧ d = c') ∨ (u ≠ t ∧ s.cells[u]? = some d) := by
    intro u d hu
    by_cases hut : u = t
    · subst hut
      rw [List.getElem?_set_self'] at hu
      rw [hc] at hu
      exact Or.inl ⟨rfl, by simpa using hu.symm⟩
    · rw [List.getElem?_set_ne (fun a => hut a.symm)] at hu
      exact Or.inr ⟨hut, hu⟩
  refine ⟨?_, ?_, ?_, ?_, ?_⟩
  · intro u d hu
    rcases hget u d hu with ⟨hu1, hd1⟩ | ⟨hut, hu'⟩
    · rw [hd1, hacc, hu1]
    · rw [hs.counts u d hu', hoth u hut]
  · intro k u hk
    rw [List.length_set]
    exact hktar k u hk
  · intro gi gu hg
    obtain ⟨d, hd, hslot⟩ := hs.gwf gi gu hg
    by_cases hut : gu.cell = t
    · subst hut
      have hdc : d = c := by
        rw [hd] at hc
        exact Option.some_inj.mp hc
      subst hdc
      refine ⟨c', ?_, ?_⟩
      · rw [List.getElem?_set_self']
        rw [hd]
        rfl
      · rw [hdom]
        exact hslot
    · refine ⟨d, ?_, hslot⟩
      rw [List.getElem?_set_ne (fun a => hut a.symm)]
      exact hd
  · intro gi gj gu gv hgi hgj hne hcell
    exact hs.gdist gi gj gu gv hgi hgj hne hcell
  · intro u d hu hdes'
    rcases hget u d hu with ⟨hu1, hd1⟩ | ⟨hut, hu'⟩
    · rw [hd1] at hdes' ⊢
      exact hdeadc hdes'
    · exact hs.dead u d hu' hdes'

theorem sysInv_dropGuard (s : Sys) (g : Nat) (gu : GuardSt) (c : CellSt)
    (hs : SysInv s)
    (hg : s.guards[g]? = some (some gu))
    (hc : s.cells[gu.cell]? = some c) :
    SysInv ⟨s.cells.set gu.cell
              (tryDropC
                { c with domain := clearAt c.domain gu.node gu.ptr } gu.ptr),
            s.keeps, s.guards.set g none⟩ := by
  obtain ⟨d0, hd0, hslot0⟩ := hs.gwf g gu hg
  have hd0c : d0 = c := by
    rw [hd0] at hc
    exact Option.some_inj.mp hc
  subst hd0c
  have hnotdead : d0.destroyed = false := by
    by_cases hdd : d0.destroyed = true
    · have := (hs.dead gu.cell d0 hd0 hdd).2
      rw [not_allEmpty_of_slot d0.domain gu.node gu.ptr hslot0] at this
      cases this
    · rw [Bool.not_eq_true] at hdd
      exact hdd
  set cmid : CellSt := { d0 with domain := clearAt d0.domain gu.node gu.ptr }
    with hcmid
  set c' : CellSt := tryDropC cmid gu.ptr with hc'
  have hacc' : c'.accessorCount = d0.accessorCount := by
    rw [hc']
    exact (tryDropC_fields cmid gu.ptr).1
  have hdom' : c'.domain = clearAt d0.domain gu.node gu.ptr := by
    rw [hc']
    exact (tryDropC_fields cmid gu.ptr).2
  have hget : ∀ (u : Nat) (d : CellSt), (s.cells.set gu.cell c')[u]? = some d →
      (u = gu.cell ∧ d = c') ∨ (u ≠ gu.cell ∧ s.cells[u]? = some d) := by
    intro u d hu
    by_cases hut : u = gu.cell
    · subst hut
      rw [List.getElem?_set_self'] at hu
      rw [hd0] at hu
      exact Or.inl ⟨rfl, by simpa using hu.symm⟩
    · rw [List.getElem?_set_ne (fun a => hut a.symm)] at hu
      exact Or.inr ⟨hut, hu⟩
  have hgget : ∀ (gj : Nat) (gv : GuardSt),
      (s.guards.set g none)[gj]? = some (some gv) →
      gj ≠ g ∧ s.guards[gj]? = some (some gv) := by
    intro gj gv hgj
    by_cases hjg : gj = g
    · subst hjg
      rw [List.getElem?_set_self'] at hgj
      rw [hg] at hgj
      simp at hgj
    · rw [List.getElem?_set_ne (fun a => hjg a.symm)] at hgj
      exact ⟨hjg, hgj⟩
  refine ⟨?_, ?_, ?_, ?_, ?_⟩
  · intro u d hu
    rcases hget u d hu with ⟨hu1, hd1⟩ | ⟨hut, hu'⟩
    · rw [hd1, hacc', hu1]
      exact hs.counts gu.cell d0 hd0
    · exact hs.counts u d hu'
  · intro k u hk
    rw [List.length_set]
    exact hs.ktargets k u hk
  · intro gj gv hgj
    obtain ⟨hjg, hold⟩ := hgget gj gv hgj
    obtain ⟨d, hd, hslot⟩ := hs.gwf gj gv hold
    by_cases hut : gv.cell = gu.cell
    · have hdc : d = d0 := by
        rw [hut] at hd
        rw [hd] at hd0
        exact Option.some_inj.mp hd0
      subst hdc
      have hnodes : gv.node ≠ gu.node :=
        (hs.gdist gj g gv gu hold hg hjg (by rw [hut])).symm ∘ Eq.symm
      refine ⟨c', ?_, ?_⟩
      · rw [hut, List.getElem?_set_self']
        rw [hd0]
        rfl
      · rw [hdom', clearAt_get_ne d.domain gu.node gu.ptr gv.node hnodes]
        exact hslot
    · refine ⟨d, ?_, hslot⟩
      rw [List.getElem?_set_ne (fun a => hut a.symm)]
      exact hd
  · intro gi gj gv gw hgi hgj hne hcell
    obtain ⟨_, hi_old⟩ := hgget gi gv hgi
    obtain ⟨_, hj_old⟩ := hgget gj gw hgj
    exact hs.gdist gi gj gv gw hi_old hj_old hne hcell
  · intro u d hu hdes'
    rcases hget u d hu with ⟨hu1, hd1⟩ | ⟨hut, hu'⟩
    · subst hd1
      rcases tryDropC_destroyed cmid gu.ptr (by rw [hc'] at hdes'; exact hdes')
        with hl | hr
      · rw [show cmid.destroyed = d0.destroyed from rfl, hnotdead] at hl
        cases hl
      · constructor
        · rw [hacc']
          exact hr.1
        · rw [hdom']
          exact hr.2
    · exact hs.dead u d hu' hdes'

theorem sysInv_newKeep (s : Sys) (v : Nat) (hs : SysInv s) :
    SysInv ⟨s.cells ++ [initCell v], s.keeps ++ [some s.cells.length], s.guards⟩ := by
  refine ⟨?_, ?_, ?_, ?_, ?_⟩
  · intro t c ht
    rw [countRefs_append, countRefs_singleton]
    rcases getElem?_concat_cases s.cells _ t _ ht with hold | ⟨hteq, hceq⟩
    · have htl : t < s.cells.length := by
        by_contra hh
        rw [List.getElem?_eq_none (by omega)] at hold
        cases hold
      have hne : s.cells.length ≠ t := by omega
      rw [hs.counts t c hold]
      simp [refOf, hne]
    · subst hteq
      subst hceq
      have hzero : countRefs s.keeps s.cells.length = 0 := by
        apply countRefs_zero_of_big
        intro k u hk
        have := hs.ktargets k u hk
        omega
      rw [hzero]
      simp [initCell, refOf]
  · intro k u hk
    rw [List.length_append, List.length_cons, List.length_nil]
    rcases getElem?_concat_cases s.keeps _ k _ hk with hold | ⟨hkeq, hueq⟩
    · have := hs.ktargets k u hold
      omega
    · have : u = s.cells.length := by simpa using hueq
      omega
  · intro gi gu hg
    obtain ⟨d, hd, hslot⟩ := hs.gwf gi gu hg
    have hlt : gu.cell < s.cells.length := by
      by_contra hh
      rw [List.getElem?_eq_none (by omega)] at hd
      cases hd
    refine ⟨d, ?_, hslot⟩
    rw [List.getElem?_append_left hlt]
    exact hd
  · intro gi gj gu gv hgi hgj hne hcell
    exact hs.gdist gi gj gu gv hgi hgj hne hcell
  · intro t c ht hdes
    rcases getElem?_concat_cases s.cells _ t _ ht with hold | ⟨hteq, hceq⟩
    · exact hs.dead t c hold hdes
    · subst hceq
      cases hdes

theorem dropAccC_fields (c : CellSt) :
    (dropAccC c).accessorCount = c.accessorCount - 1
    ∧ (dropAccC c).domain = c.domain := by
  unfold dropAccC
  by_cases h : c.accessorCount = 1 ∧ isAllEmptyB c.domain
  · rw [if_pos h]
    exact ⟨(destroyCell_fields _).1, (destroyCell_fields _).2.1⟩
  · rw [if_neg h]
    exact ⟨rfl, rfl⟩

theorem getKeep_eq (s : Sys) (k t : Nat) (h : s.getKeep k = some t) :
    s.keeps[k]? = some (some t) := by
  unfold Sys.getKeep at h
  cases hkk : s.keeps[k]? with
  | none => rw [hkk] at h; cases h
  | some o =>
    rw [hkk] at h
    cases o with
    | none => cases h
    | some u =>
      simp only [Option.some_bind, id] at h
      exact congrArg some h

theorem getGuard_eq (s : Sys) (g : Nat) (gu : GuardSt) (h : s.getGuard g = some gu) :
    s.guards[g]? = some (some gu) := by
  unfold Sys.getGuard at h
  cases hgg : s.guards[g]? with
  | none => rw [hgg] at h; cases h
  | some o =>
    rw [hgg] at h
    cases o with
    | none => cases h
    | some u =>
      simp only [Option.some_bind, id] at h
      exact congrArg some h

theorem cell_not_dead_of_keep (s : Sys) (k t : Nat) (c : CellSt) (hs : SysInv s)
    (hk : s.keeps[k]? = some (some t)) (hc : s.cells[t]? = some c) :
    c.destroyed = false := by
  by_cases hdd : c.destroyed = true
  · have hz := (hs.dead t c hc hdd).1
    rw [hs.counts t c hc] at hz
    have := countRefs_pos s.keeps k t hk
    omega
  · rw [Bool.not_eq_true] at hdd
    exact hdd

theorem cells_get_of_lt (s : Sys) (t : Nat) (h : t < s.cells.length) :
    ∃ c, s.cells[t]? = some c :=
  ⟨_, List.getElem?_eq_getElem h⟩

theorem sysInv_step (s : Sys) (op : Op) (hs : SysInv s) : SysInv (step s op) := by
  cases op with
  | newKeep v =>
    simp only [step]
    exact sysInv_newKeep s v hs
  | cloneKeep k =>
    simp only [step]
    split
    · next t hk =>
        have hk' := getKeep_eq s k t hk
        obtain ⟨c, hc⟩ := cells_get_of_lt s t (hs.ktargets k t hk')
        simp only [updCell, hc]
        show SysInv ⟨s.cells.set t (regAcc c), s.keeps ++ [some t], s.guards⟩
        refine sysInv_cell_keeps s t c (regAcc c) (s.keeps ++ [some t]) hs hc rfl
          ?_ ?_ ?_ ?_
        · rw [countRefs_append, countRefs_singleton]
          show c.accessorCount + 1 = _
          rw [hs.counts t c hc]
          simp [refOf]
        · intro u hut
          rw [countRefs_append, countRefs_singleton]
          have : refOf (some t) u = 0 := by simp [refOf, Ne.symm hut]
          omega
        · intro j u hj
          rcases getElem?_concat_cases s.keeps _ j _ hj with hold | ⟨hjl, hueq⟩
          · exact hs.ktargets j u hold
          · have hut2 : u = t := by simpa using hueq
            rw [hut2]
            exact hs.ktargets k t hk'
        · intro hdd
          have hz := (hs.dead t c hc (by simpa [regAcc] using hdd)).1
          rw [hs.counts t c hc] at hz
          have hp := countRefs_pos s.keeps k t hk'
          exact absurd hz (by omega)
    · exact hs
  | cloneFromK k k' =>
    simp only [step]
    split
    · next t t' hk hk' =>
        have hk1 := getKeep_eq s k t hk
        have hk2 := getKeep_eq s k' t' hk'
        obtain ⟨c, hc⟩ := cells_get_of_lt s t' (hs.ktargets k' t' hk2)
        simp only [updCell, hc]
        show SysInv ⟨s.cells.set t' (regAcc c),
          (s.keeps.set k (some t')) ++ [some t], s.guards⟩
        have hseteq : ∀ u, countRefs (s.keeps.set k (some t')) u + refOf (some t) u
            = countRefs s.keeps u + refOf (some t') u :=
          fun u => countRefs_set s.keeps k (some t) (some t') u hk1
        refine sysInv_cell_keeps s t' c (regAcc c)
          ((s.keeps.set k (some t')) ++ [some t]) hs hc rfl ?_ ?_ ?_ ?_
        · rw [countRefs_append, countRefs_singleton]
          show c.accessorCount + 1 = _
          rw [hs.counts t' c hc]
          have h1 := hseteq t'
          have h2 : refOf (some t') t' = 1 := by simp [refOf]
          omega
        · intro u hut
          rw [countRefs_append, countRefs_singleton]
          have h1 := hseteq u
          have h2 : refOf (some t') u = 0 := by simp [refOf, Ne.symm hut]
          omega
        · intro j u hj
          rcases getElem?_concat_cases _ _ j _ hj with hold | ⟨hjl, hueq⟩
          · by_cases hjk : j = k
            · subst hjk
              rw [List.getElem?_set_self'] at hold
              rw [hk1] at hold
              have hut2 : u = t' := by simpa using hold.symm
              rw [hut2]
              exact hs.ktargets k' t' hk2
            · rw [List.getElem?_set_ne (fun a => hjk a.symm)] at hold
              exact hs.ktargets j u hold
          · have hut2 : u = t := by simpa using hueq
            rw [hut2]
            exact hs.ktargets k t hk1
        · intro hdd
          have hz := (hs.dead t' c hc (by simpa [regAcc] using hdd)).1
          rw [hs.counts t' c hc] at hz
          have hp := countRefs_pos s.keeps k' t' hk2
          exact absurd hz (by omega)
    · exact hs
  | dropKeep k =>
    simp only [step]
    split
    · next t hk =>
        have hk' := getKeep_eq s k t hk
        obtain ⟨c, hc⟩ := cells_get_of_lt s t (hs.ktargets k t hk')
        simp only [updCell, hc]
        show SysInv ⟨s.cells.set t (dropAccC c), s.keeps.set k none, s.guards⟩
        have hseteq : ∀ u, countRefs (s.keeps.set k none) u + refOf (some t) u
            = countRefs s.keeps u + refOf none u :=
          fun u => countRefs_set s.keeps k (some t) none u hk'
        refine sysInv_cell_keeps s t c (dropAccC c) (s.keeps.set k none) hs hc
          (dropAccC_fields c).2 ?_ ?_ ?_ ?_
        · rw [(dropAccC_fields c).1, hs.counts t c hc]
          have h1 := hseteq t
          have h2 : refOf (some t) t = 1 := by simp [refOf]
          have h3 : refOf (none : Option Nat) t = 0 := rfl
          omega
        · intro u hut
          have h1 := hseteq u
          have h2 : refOf (some t) u = 0 := by simp [refOf, Ne.symm hut]
          have h3 : refOf (none : Option Nat) u = 0 := rfl
          omega
        · intro j u hj
          by_cases hjk : j = k
          · subst hjk
            rw [List.getElem?_set_self'] at hj
            cases hjj : s.keeps[j]? with
            | none => rw [hjj] at hj; cases hj
            | some o => rw [hjj] at hj; simp at hj
          · rw [List.getElem?_set_ne (fun a => hjk a.symm)] at hj
            exact hs.ktargets j u hj
        · unfold dropAccC
          by_cases hcond : c.accessorCount = 1 ∧ isAllEmptyB c.domain
          · rw [if_pos hcond]
            intro _
            constructor
            · rw [(destroyCell_fields _).1]
              show c.accessorCount - 1 = 0
              omega
            · rw [(destroyCell_fields _).2.1]
              show isAllEmptyB c.domain = true
              exact hcond.2
          · rw [if_neg hcond]
            intro hdd
            have hz := (hs.dead t c hc hdd).1
            rw [hs.counts t c hc] at hz
            have hp := countRefs_pos s.keeps k t hk'
            exact absurd hz (by omega)
    · exact hs
  | writeK k v =>
    simp only [step]
    split
    · next t hk =>
        have hk' := getKeep_eq s k t hk
        obtain ⟨c, hc⟩ := cells_get_of_lt s t (hs.ktargets k t hk')
        simp only [updCell, hc]
        show SysInv ⟨s.cells.set t (storeC c v), s.keeps, s.guards⟩
        refine sysInv_cell_keeps s t c (storeC c v) s.keeps hs hc
          (storeC_fields c v).2 ?_ (fun u _ => rfl) hs.ktargets ?_
        · rw [(storeC_fields c v).1]
          exact hs.counts t c hc
        · intro hdd
          have hnd := cell_not_dead_of_keep s k t c hs hk' hc
          rcases storeC_destroyed c v hdd with hl | hr
          · rw [hnd] at hl
            cases hl
          · have hz := hr.1
            rw [hs.counts t c hc] at hz
            have hp := countRefs_pos s.keeps k t hk'
            exact absurd hz (by omega)
    · exact hs
  | readGuard k =>
    simp only [step]
    split
    · next t hk =>
        split
        · next c hc =>
            have hk' := getKeep_eq s k t hk
            show SysInv ⟨s.cells.set t (loadC c).1, s.keeps,
              s.guards ++ [some ⟨t, c.current, (domInsert c.domain c.current).2⟩]⟩
            exact sysInv_guard_append s t c (loadC c).1 c.current hs hc rfl rfl rfl
              (cell_not_dead_of_keep s k t c hs hk' hc)
        · exact hs
    · exact hs
  | swapK k v =>
    simp only [step]
    split
    · next t hk =>
        split
        · next c hc =>
            have hk' := getKeep_eq s k t hk
            show SysInv ⟨s.cells.set t (swapCG c v).1, s.keeps,
              s.guards ++ [some ⟨t, c.current, (domInsert c.domain c.current).2⟩]⟩
            exact sysInv_guard_append s t c (swapCG c v).1 c.current hs hc rfl rfl rfl
              (cell_not_dead_of_keep s k t c hs hk' hc)
        · exact hs
    · exact hs
  | exchangeK k g v =>
    simp only [step]
    split
    · next t gu hk hg =>
        split
        · next hcell =>
            split
            · next c hc =>
                have hk' := getKeep_eq s k t hk
                show SysInv ⟨s.cells.set t (exchangeC c gu.ptr v).1, s.keeps,
                  s.guards ++ [some ⟨t, c.current,
                    (domInsert c.domain c.current).2⟩]⟩
                exact sysInv_guard_append s t c (exchangeC c gu.ptr v).1 c.current
                  hs hc rfl rfl rfl (cell_not_dead_of_keep s k t c hs hk' hc)
            · exact hs
        · exact hs
    · exact hs
  | cloneGuard g =>
    simp only [step]
    split
    · next gu hg =>
        split
        · next c hc =>
            have hg' := getGuard_eq s g gu hg
            obtain ⟨d, hd, hslot⟩ := hs.gwf g gu hg'
            have hdc : d = c := by
              rw [hd] at hc
              exact Option.some_inj.mp hc
            subst hdc
            have hnd : d.destroyed = false := by
              by_cases hdd : d.destroyed = true
              · have := (hs.dead gu.cell d hd hdd).2
                rw [not_allEmpty_of_slot d.domain gu.node gu.ptr hslot] at this
                cases this
              · rw [Bool.not_eq_true] at hdd
                exact hdd
            show SysInv ⟨s.cells.set gu.cell
                ⟨d.accessorCount, d.current, d.muts,
                  (domInsert d.domain gu.ptr).1, d.destroyed⟩, s.keeps,
              s.guards ++ [some ⟨gu.cell, gu.ptr, (domInsert d.domain gu.ptr).2⟩]⟩
            exact sysInv_guard_append s gu.cell d
              ⟨d.accessorCount, d.current, d.muts,
                (domInsert d.domain gu.ptr).1, d.destroyed⟩ gu.ptr hs hd
              rfl rfl rfl hnd
        · exact hs
    · exact hs
  | dropGuard g =>
    simp only [step]
    split
    · next gu hg =>
        have hg' := getGuard_eq s g gu hg
        obtain ⟨c, hc, hslot⟩ := hs.gwf g gu hg'
        simp only [updCell, hc]
        show SysInv ⟨s.cells.set gu.cell
            (tryDropC { c with domain := clearAt c.domain gu.node gu.ptr } gu.ptr),
          s.keeps, s.guards.set g none⟩
        exact sysInv_dropGuard s g gu c hs hg' hc
    · exact hs

theorem sysInv_run (ops : List Op) (s : Sys) (hs : SysInv s) :
    SysInv (runOps s ops) := by
  induction ops generalizing s with
  | nil => exact hs
  | cons op ops ih => exact ih (step s op) (sysInv_step s op hs)

theorem sysInv_init : SysInv initSys := by
  refine ⟨?_, ?_, ?_, ?_, ?_⟩
  · intro a b h
    simp [initSys] at h
  · intro a b h
    simp [initSys] at h
  · intro a b h
    simp [initSys] at h
  · intro gi gj gu gv hgi
    simp [initSys] at hgi
  · intro a b h
    simp [initSys] at h

/-- C7: across every sequence of `Keep::new`, `Keep::clone`,
`Keep::clone_from` and `Keep` drops (and all read/write/guard
operations), each tracked atomic's `accessor_count` equals the number of
live `Keep` handles currently referencing it, and a tracked atomic is
torn down (`destroy` has run) only when that count is zero and its
hazard domain is entirely empty. -/
theorem accessor_count_C7 (ops : List Op) (t : Nat) (c : CellSt)
    (hc : (runOps initSys ops).cells[t]? = some c) :
    c.accessorCount = countRefs (runOps initSys ops).keeps t
    ∧ (c.destroyed = true →
        c.accessorCount = 0 ∧ isAllEmptyB c.domain = true) := by
  have hs := sysInv_run ops initSys sysInv_init
  exact ⟨hs.counts t c hc, hs.dead t c hc⟩

/-- Witness for `accessor_count_C7`: create a keep, clone it, clone a
fresh keep from the first, then drop all three handles; the cell of the
first keep ends destroyed with a zero accessor count and an empty
domain, matching the invariant. -/
theorem accessor_count_C7_witness :
    (runOps initSys [.newKeep 1, .cloneKeep 0, .newKeep 2, .cloneFromK 2 0,
        .dropKeep 0, .dropKeep 1, .dropKeep 2, .dropKeep 3]).cells[0]?
      = some ⟨0, 0, [⟨1, true, 1⟩], [none], true⟩
    ∧ ((0 : Nat) = countRefs (runOps initSys [.newKeep 1, .cloneKeep 0,
          .newKeep 2, .cloneFromK 2 0, .dropKeep 0, .dropKeep 1, .dropKeep 2,
          .dropKeep 3]).keeps 0
       ∧ (true = true → (0 : Nat) = 0 ∧ isAllEmptyB [none] = true)) := by
  constructor
  · rfl
  · exact accessor_count_C7 [.newKeep 1, .cloneKeep 0, .newKeep 2,
      .cloneFromK 2 0, .dropKeep 0, .dropKeep 1, .dropKeep 2, .dropKeep 3] 0
      ⟨0, 0, [⟨1, true, 1⟩], [none], true⟩ rfl
